import Mathlib

/-!
# PolyHJ — verification of the join core against its specification

A shallow embedding of the PolyHJ polymorphic hash join (sources under
`src/`): the in-place cache-aware partitioner (ICP, `src/join/partition.c`),
the skew detector (`ICP_estimate_skew`), the collaborative build/probe
models (`src/join/buildprobe_{I,II,III}.c`), the model dispatch
(`src/join/run.c`), worker sub-range assignment (`src/util/threads.c`),
the math helpers (`src/util/util.c`) and the command-line parser
(`src/util/cmd_args.c`).

Machine integers: all the quantities involved (keys, sizes, counters)
are far below 2^32 under the preconditions used here, so C `uint32_t`
arithmetic is embedded as `Nat`; the bit operations `>>`, `<<`, `&` are
embedded as the corresponding `Nat` operations.  Arrays are embedded as
functions `Nat → _` updated with `Function.update`, or as `List`s when
the code walks them linearly.  The worker threads are barrier-separated
into phases whose shared writes target pairwise distinct cells, so each
phase is embedded as a fold over one chosen interleaving; the
cell-content lemmas proved below only use per-cell properties that hold
for every interleaving.
-/

namespace PolyHJ

/-- A tuple: 32-bit key and 32-bit payload (`types.h`, `tuple_t`). -/
structure Tuple where
  key : Nat
  payload : Nat
deriving DecidableEq, Repr

/-- Default tuple used when reading a cell that was never written. -/
def dflt : Tuple := ⟨0, 0⟩

/-- `HASH(K, MASK) = (K & MASK)` from `common.h`. -/
def HASH (k mask : Nat) : Nat := k &&& mask

/-- `HASHx(K, MASK, SHIFT) = ((K >> SHIFT) & MASK)` from `common.h`. -/
def HASHx (k mask shift : Nat) : Nat := (k >>> shift) &&& mask

/-- `ChunkSize = ((1 << 15) - 10)` from `common.h`. -/
def ChunkSize : Nat := (1 <<< 15) - 10

/-- `div_ceil` from `util.c`: `a/b + (a%b > 0)`. -/
def div_ceil (a b : Nat) : Nat := a / b + (if a % b > 0 then 1 else 0)

/-- `lg_floor` from `util.c` (`result=0; while(N >>= 1) result++;`),
written with a structural fuel argument; `fuel = N` always suffices
because the loop runs `⌊lg N⌋ ≤ N` times. -/
def lg_floor_go : Nat → Nat → Nat
  | 0, _ => 0
  | fuel+1, N => if N >>> 1 = 0 then 0 else lg_floor_go fuel (N >>> 1) + 1

/-- `lg_floor(N)` from `util.c`. -/
def lg_floor (N : Nat) : Nat := lg_floor_go N N

/-- `lg_ceil` from `util.c`: `lg_floor N + ((1 << lg_floor N) != N)`. -/
def lg_ceil (N : Nat) : Nat :=
  lg_floor N + (if 1 <<< lg_floor N ≠ N then 1 else 0)

/-! ## Generic helpers: sums over `List.range`, contiguous chopping -/

/-- Sum `g 0 + … + g (n-1)`; used below for prefix sums of histograms. -/
def sumR (g : Nat → Nat) (n : Nat) : Nat := ((List.range n).map g).sum

theorem sumR_zero (g : Nat → Nat) : sumR g 0 = 0 := rfl

theorem sumR_succ (g : Nat → Nat) (n : Nat) :
    sumR g (n+1) = sumR g n + g n := by
  simp [sumR, List.range_succ]

theorem sumR_mono (g : Nat → Nat) {m n : Nat} (h : m ≤ n) :
    sumR g m ≤ sumR g n := by
  induction n with
  | zero => simp_all
  | succ k ih =>
    rcases Nat.lt_or_ge m (k+1) with h2 | h2
    · exact le_trans (ih (by omega)) (by rw [sumR_succ]; omega)
    · have : m = k + 1 := by omega
      simp [this]

theorem sumR_congr {g h : Nat → Nat} (n : Nat) (he : ∀ i, i < n → g i = h i) :
    sumR g n = sumR h n := by
  induction n with
  | zero => rfl
  | succ k ih =>
    rw [sumR_succ, sumR_succ, ih (fun i hi => he i (by omega)), he k (by omega)]

theorem sumR_add (g h : Nat → Nat) (n : Nat) :
    sumR (fun i => g i + h i) n = sumR g n + sumR h n := by
  induction n with
  | zero => rfl
  | succ k ih => rw [sumR_succ, sumR_succ, sumR_succ, ih]; omega

theorem sumR_const_zero (n : Nat) : sumR (fun _ => 0) n = 0 := by
  induction n with
  | zero => rfl
  | succ k ih => rw [sumR_succ, ih]

/-- Summing an indicator of `v` over `0 … n-1` yields `c` when `v < n`. -/
theorem sumR_indicator (v c n : Nat) (hv : v < n) :
    sumR (fun i => if v = i then c else 0) n = c := by
  induction n with
  | zero => omega
  | succ k ih =>
    rw [sumR_succ]
    rcases Nat.lt_or_ge v k with h | h
    · rw [ih h, if_neg (by omega)]
      omega
    · have hvk : v = k := by omega
      have hz : sumR (fun i => if v = i then c else 0) k
          = sumR (fun _ => 0) k :=
        sumR_congr k (fun i hi => by rw [if_neg (by omega)])
      rw [hz, sumR_const_zero, if_pos hvk]
      omega

/-- The contiguous slice of `l` starting at `off` of length `len`. -/
def segOf (l : List Tuple) (off len : Nat) : List Tuple :=
  (l.drop off).take len

/-- Concatenating the consecutive slices of lengths `lens 0, …, lens (n-1)`
yields the prefix of length `lens 0 + … + lens (n-1)`. -/
theorem flatMap_segOf_take (l : List Tuple) (lens : Nat → Nat) (n : Nat) :
    (List.range n).flatMap (fun i => segOf l (sumR lens i) (lens i))
      = l.take (sumR lens n) := by
  induction n with
  | zero => rfl
  | succ k ih =>
    rw [List.range_succ, List.flatMap_append, ih, sumR_succ, List.take_add]
    simp [segOf]

/-- Chopping a list into consecutive slices of lengths `lens 0, lens 1, …`
recovers the list, provided the lengths sum to the full length. -/
theorem flatMap_segOf (l : List Tuple) (lens : Nat → Nat) (n : Nat)
    (hsum : sumR lens n = l.length) :
    (List.range n).flatMap (fun i => segOf l (sumR lens i) (lens i)) = l := by
  rw [flatMap_segOf_take, hsum, List.take_length]

/-! ## The per-block scatter of ICP (`partition.c` lines 109-168)

The code builds a per-block histogram (`++Histo[HASHx(...)]`), turns it
into prefix sums, then scatters each tuple to `Directory[Histo[h]++]`.
We embed the histogram and the scatter as folds over the block, with the
histogram / cursor array as a function `Nat → Nat` and the scatter target
as a function `Nat → Option Tuple` (`none` = never written).  The hash is
abstracted as `f : Tuple → Nat`; ICP instantiates it with
`HASHx key mask shift`. -/

/-- Number of tuples of `l` in partition `p`. -/
def cntP (f : Tuple → Nat) (l : List Tuple) (p : Nat) : Nat :=
  l.countP (fun t => f t == p)

/-- The tuples of `l` in partition `p`, in order. -/
def grp (f : Tuple → Nat) (l : List Tuple) (p : Nat) : List Tuple :=
  l.filter (fun t => f t == p)

/-- Histogram loop of `partition.c` (lines 110-113). -/
def blockHisto (f : Tuple → Nat) (blk : List Tuple) : Nat → Nat :=
  blk.foldl (fun H t => Function.update H (f t) (H (f t) + 1)) (fun _ => 0)

/-- In-place prefix-sum loop of `partition.c` (lines 140-145):
after it, `Histo[p]` holds the number of tuples in partitions `< p`. -/
def prefixHisto (f : Tuple → Nat) (blk : List Tuple) (p : Nat) : Nat :=
  sumR (blockHisto f blk) p

/-- Scatter loop of `partition.c` (lines 162-166):
`Directory[Histo[h]++] = t`, threading the cursor array and the
directory through a fold. -/
def scatterFold (f : Tuple → Nat) (blk : List Tuple)
    (st : (Nat → Nat) × (Nat → Option Tuple)) :
    (Nat → Nat) × (Nat → Option Tuple) :=
  blk.foldl (fun st t =>
    (Function.update st.1 (f t) (st.1 (f t) + 1),
     Function.update st.2 (st.1 (f t)) (some t))) st

/-- The directory contents after scattering one block whose cursors start
at the block's prefix sums (the situation in ICP). -/
def scatterView (f : Tuple → Nat) (blk : List Tuple) : Nat → Option Tuple :=
  (scatterFold f blk (prefixHisto f blk, fun _ => none)).2

/-- The scattered block, read back as a list. -/
def scatterList (f : Tuple → Nat) (blk : List Tuple) : List Tuple :=
  (List.range blk.length).map (fun j => (scatterView f blk j).getD dflt)

/-- Partitions `0, …, n-1` of `blk`, concatenated in partition order. -/
def flatGroups (f : Tuple → Nat) (n : Nat) (blk : List Tuple) : List Tuple :=
  (List.range n).flatMap (grp f blk)

theorem grp_cons (f : Tuple → Nat) (t : Tuple) (l : List Tuple) (p : Nat) :
    grp f (t :: l) p = if f t = p then t :: grp f l p else grp f l p := by
  by_cases h : f t = p <;> simp [grp, List.filter_cons, h]

theorem cntP_cons (f : Tuple → Nat) (t : Tuple) (l : List Tuple) (p : Nat) :
    cntP f (t :: l) p = cntP f l p + (if f t = p then 1 else 0) := by
  by_cases h : f t = p <;> simp [cntP, List.countP_cons, h]

theorem cntP_append (f : Tuple → Nat) (l₁ l₂ : List Tuple) (p : Nat) :
    cntP f (l₁ ++ l₂) p = cntP f l₁ p + cntP f l₂ p := by
  simp [cntP, List.countP_append]

theorem grp_append (f : Tuple → Nat) (l₁ l₂ : List Tuple) (p : Nat) :
    grp f (l₁ ++ l₂) p = grp f l₁ p ++ grp f l₂ p := by
  simp [grp, List.filter_append]

theorem grp_length (f : Tuple → Nat) (l : List Tuple) (p : Nat) :
    (grp f l p).length = cntP f l p := by
  simp [grp, cntP, List.countP_eq_length_filter]

/-- The histogram fold counts partition frequencies. -/
theorem blockHisto_eq_cntP (f : Tuple → Nat) (blk : List Tuple) (p : Nat) :
    blockHisto f blk p = cntP f blk p := by
  suffices h : ∀ (H : Nat → Nat),
      (blk.foldl (fun H t => Function.update H (f t) (H (f t) + 1)) H) p
        = H p + cntP f blk p by
    simpa [blockHisto] using h (fun _ => 0)
  induction blk with
  | nil => intro H; simp [cntP]
  | cons t rest ih =>
    intro H
    rw [List.foldl_cons, ih, cntP_cons]
    by_cases h : f t = p
    · subst h; simp [Function.update_same]; omega
    · rw [Function.update_noteq (by omega)]
      simp [h]

/-- Total tuples in partitions `< n` is the whole block, when every
tuple hashes below `n`. -/
theorem prefixHisto_total (f : Tuple → Nat) (blk : List Tuple) (n : Nat)
    (h : ∀ t ∈ blk, f t < n) : prefixHisto f blk n = blk.length := by
  unfold prefixHisto
  rw [sumR_congr n (fun i _ => blockHisto_eq_cntP f blk i)]
  induction blk with
  | nil =>
    rw [sumR_congr n (fun i _ => by simp [cntP] : ∀ i, i < n → cntP f [] i = (fun _ => 0) i),
      sumR_const_zero]
    rfl
  | cons t rest ih =>
    have : sumR (cntP f (t :: rest)) n
        = sumR (fun i => cntP f rest i + (if f t = i then 1 else 0)) n :=
      sumR_congr n (fun i _ => cntP_cons f t rest i)
    rw [this, sumR_add, ih (fun x hx => h x (by simp [hx])),
      sumR_indicator (f t) 1 n (h t (by simp))]
    simp

theorem prefixHisto_succ (f : Tuple → Nat) (blk : List Tuple) (p : Nat) :
    prefixHisto f blk (p+1) = prefixHisto f blk p + cntP f blk p := by
  unfold prefixHisto
  rw [sumR_succ, blockHisto_eq_cntP]

/-- Room invariant used by the scatter proof: cursors of later
partitions stay beyond the slots of earlier ones. -/
theorem prefixHisto_room (f : Tuple → Nat) (blk : List Tuple) {p q : Nat}
    (h : p < q) : prefixHisto f blk p + cntP f blk p ≤ prefixHisto f blk q := by
  rw [← prefixHisto_succ]
  exact sumR_mono _ h

/-- Core correctness of the scatter loop: with cursors `C` and room
between them, each partition's slots receive exactly its tuples in
order, and every slot outside the cursor ranges is untouched. -/
theorem scatterFold_spec (f : Tuple → Nat) (blk : List Tuple) :
    ∀ (C : Nat → Nat) (D : Nat → Option Tuple),
    (∀ p q, p < q → C p + cntP f blk p ≤ C q) →
    (∀ p, ((List.range (cntP f blk p)).map
        (fun j => (scatterFold f blk (C, D)).2 (C p + j)))
        = (grp f blk p).map some)
    ∧ (∀ pos, (∀ p, pos < C p ∨ C p + cntP f blk p ≤ pos) →
        (scatterFold f blk (C, D)).2 pos = D pos) := by
  induction blk with
  | nil =>
    intro C D _
    constructor
    · intro p; simp [cntP, grp, scatterFold]
    · intro pos _; simp [scatterFold]
  | cons t rest ih =>
    intro C D hC
    have hcnt0 : 1 ≤ cntP f (t :: rest) (f t) := by
      rw [cntP_cons, if_pos rfl]; omega
    -- one scatter step
    have hstep : scatterFold f (t :: rest) (C, D)
        = scatterFold f rest
            (Function.update C (f t) (C (f t) + 1),
             Function.update D (C (f t)) (some t)) := rfl
    set C' := Function.update C (f t) (C (f t) + 1) with hC'
    set D' := Function.update D (C (f t)) (some t) with hD'
    have hcnt : ∀ p, cntP f (t :: rest) p
        = cntP f rest p + (if f t = p then 1 else 0) := cntP_cons f t rest
    have hroom : ∀ p q, p < q → C' p + cntP f rest p ≤ C' q := by
      intro p q hpq
      by_cases hp : f t = p
      · subst hp
        rw [hC', Function.update_same,
          Function.update_noteq (by omega)]
        have := hC _ _ hpq
        rw [hcnt] at this
        simp at this
        omega
      · by_cases hq : f t = q
        · subst hq
          rw [hC', Function.update_noteq (by omega), Function.update_same]
          have := hC _ _ hpq
          rw [hcnt p, if_neg hp] at this
          omega
        · rw [hC', Function.update_noteq (by omega),
            Function.update_noteq (by omega)]
          have := hC _ _ hpq
          rw [hcnt p, if_neg hp] at this
          omega
    obtain ⟨ihA, ihB⟩ := ih C' D' hroom
    constructor
    · intro p
      by_cases hp : f t = p
      · -- partition of the new head: its first slot holds `t`
        subst hp
        rw [hcnt (f t), if_pos rfl, grp_cons, if_pos rfl]
        rw [List.range_succ_eq_map]
        simp only [List.map_cons, List.map_map, Function.comp, Nat.add_zero]
        congr 1
        · -- slot C (f t) is untouched by the rest of the fold
          rw [hstep]
          rw [ihB (C (f t)) ?_]
          · rw [hD', Function.update_same]
          · intro q
            by_cases hq : f t = q
            · subst hq; left; rw [hC', Function.update_same]; omega
            · rcases Nat.lt_or_ge q (f t) with hlt | hgt
              · right
                rw [hC', Function.update_noteq (by omega)]
                have := hC q (f t) hlt
                rw [hcnt q, if_neg hq] at this
                omega
              · left
                rw [hC', Function.update_noteq (by omega)]
                have := hC (f t) q (by omega)
                omega
        · -- later slots: apply the induction hypothesis for partition f t
          have := ihA (f t)
          rw [hstep]
          have harg : ∀ j : Nat, C (f t) + Nat.succ j = C' (f t) + j := by
            intro j; rw [hC', Function.update_same]; omega
          exact (List.map_congr_left (fun j _ => by
            show (scatterFold f rest (C', D')).2 (C (f t) + Nat.succ j)
              = (scatterFold f rest (C', D')).2 (C' (f t) + j)
            rw [harg j])).trans this
      · -- other partitions: unchanged
        rw [hcnt p, if_neg hp, grp_cons, if_neg hp, hstep]
        have : C p = C' p := by rw [hC', Function.update_noteq (by omega)]
        rw [show (fun j => (scatterFold f rest (C', D')).2 (C p + j))
            = (fun j => (scatterFold f rest (C', D')).2 (C' p + j)) from
          funext (fun j => by rw [this])]
        exact ihA p
    · intro pos hpos
      rw [hstep, ihB pos ?_]
      · rw [hD', Function.update_noteq ?_]
        have := hpos (f t)
        rw [hcnt (f t), if_pos rfl] at this
        omega
      · intro p
        by_cases hp : f t = p
        · subst hp
          rcases hpos (f t) with h | h
          · left; rw [hC', Function.update_same]; omega
          · right
            rw [hC', Function.update_same]
            rw [hcnt (f t), if_pos rfl] at h
            omega
        · rw [hC', Function.update_noteq (by omega)]
          rcases hpos p with h | h
          · left; exact h
          · right
            rw [hcnt p, if_neg hp] at h
            omega

theorem flatGroups_succ (f : Tuple → Nat) (m : Nat) (blk : List Tuple) :
    flatGroups f (m+1) blk = flatGroups f m blk ++ grp f blk m := by
  rw [flatGroups, List.range_succ, List.flatMap_append]
  simp [flatGroups]

/-- The scattered block read back in directory order is exactly the
block's partitions concatenated in partition order (counting sort). -/
theorem scatterList_eq_flatGroups (f : Tuple → Nat) (blk : List Tuple)
    (n : Nat) (h : ∀ t ∈ blk, f t < n) :
    scatterList f blk = flatGroups f n blk := by
  obtain ⟨hA, _⟩ := scatterFold_spec f blk (prefixHisto f blk)
    (fun _ => none) (fun p q hpq => prefixHisto_room f blk hpq)
  have key : ∀ m : Nat,
      (List.range (prefixHisto f blk m)).map
        (fun j => (scatterView f blk j).getD dflt) = flatGroups f m blk := by
    intro m
    induction m with
    | zero => rfl
    | succ k ih =>
      rw [prefixHisto_succ, List.range_add, List.map_append, ih]
      have h2 : List.map (fun j => (scatterView f blk j).getD dflt)
          (List.map (fun x => prefixHisto f blk k + x)
            (List.range (cntP f blk k)))
          = grp f blk k := by
        rw [List.map_map]
        have h3 := congrArg (List.map (fun o : Option Tuple => o.getD dflt))
          (hA k)
        rw [List.map_map, List.map_map] at h3
        have h4 : List.map ((fun o : Option Tuple => o.getD dflt) ∘ some)
            (grp f blk k) = grp f blk k := by
          rw [show ((fun o : Option Tuple => o.getD dflt) ∘ some)
            = fun x : Tuple => x from rfl]
          exact List.map_id _
        rw [h4] at h3
        exact h3
      rw [h2, flatGroups_succ]
  have := key n
  rw [prefixHisto_total f blk n h] at this
  rw [scatterList, this]

theorem flatGroups_length (f : Tuple → Nat) (n : Nat) (blk : List Tuple) :
    (flatGroups f n blk).length = prefixHisto f blk n := by
  induction n with
  | zero => rfl
  | succ k ih =>
    rw [flatGroups_succ, List.length_append, ih, prefixHisto_succ, grp_length]

/-- Concatenating the partitions is a permutation of the block. -/
theorem flatGroups_perm (f : Tuple → Nat) (n : Nat) (blk : List Tuple)
    (h : ∀ t ∈ blk, f t < n) : List.Perm (flatGroups f n blk) blk := by
  rw [List.perm_iff_count]
  intro a
  have hcnt : ∀ m : Nat, (flatGroups f m blk).count a
      = sumR (fun p => (grp f blk p).count a) m := by
    intro m
    induction m with
    | zero => rfl
    | succ k ih => rw [flatGroups_succ, List.count_append, ih, sumR_succ]
  rw [hcnt]
  have hone : ∀ p, (grp f blk p).count a
      = if f a = p then blk.count a else 0 := by
    intro p
    by_cases hfa : f a = p
    · rw [if_pos hfa, grp, List.count_filter (by simp [hfa])]
    · rw [if_neg hfa, grp, List.count_eq_zero]
      intro hmem
      exact hfa (by simpa using (List.mem_filter.mp hmem).2)
  rw [sumR_congr n (fun p _ => hone p)]
  by_cases hmem : a ∈ blk
  · exact sumR_indicator (f a) (blk.count a) n (h a hmem)
  · have : blk.count a = 0 := List.count_eq_zero.mpr hmem
    rw [this]
    have : ∀ p, p < n → (if f a = p then (0:Nat) else 0) = (fun _ => (0:Nat)) p := by
      intro p _; simp
    rw [sumR_congr n this, sumR_const_zero]

theorem scatterList_length (f : Tuple → Nat) (blk : List Tuple) :
    (scatterList f blk).length = blk.length := by
  simp [scatterList]

theorem scatterList_perm (f : Tuple → Nat) (blk : List Tuple) (n : Nat)
    (h : ∀ t ∈ blk, f t < n) : List.Perm (scatterList f blk) blk := by
  rw [scatterList_eq_flatGroups f blk n h]
  exact flatGroups_perm f n blk h

/-- Slice of the scattered block corresponding to partition `p`. -/
theorem flatGroups_segOf (f : Tuple → Nat) (n : Nat) (blk : List Tuple)
    {p : Nat} (hp : p < n) :
    segOf (flatGroups f n blk) (prefixHisto f blk p) (cntP f blk p)
      = grp f blk p := by
  have hdecomp : flatGroups f n blk
      = flatGroups f p blk ++ grp f blk p
        ++ (List.range (n - (p+1))).flatMap (fun i => grp f blk ((p+1) + i)) := by
    have hn : n = (p+1) + (n - (p+1)) := by omega
    rw [flatGroups]
    conv =>
      lhs
      rw [hn, List.range_add, List.flatMap_append]
    rw [← flatGroups, flatGroups_succ]
    simp [List.flatMap_map]
  rw [hdecomp, segOf, List.append_assoc, List.drop_append_of_le_length
    (by rw [flatGroups_length]),
    List.drop_of_length_le (by rw [flatGroups_length]), List.nil_append,
    List.take_append_of_le_length (by rw [grp_length]),
    List.take_of_length_le (by rw [grp_length])]

/-! ## ICP block geometry and the in-place machine (`partition.c`)

The sub-relation's tuple array is embedded as a function `Nat → Tuple`.
Each loop iteration reads the current block from the array, scatters it,
and writes the result over the previous block's slot (`Directory`); the
first block is scattered into the auxiliary buffer `TmpBlock`, which is
copied over the last block's slot after the loop.  The C code writes
cell-by-cell while reading the same array, but every write of block `b`
lands strictly below `from_b` (the write region is the previous block's
slot of size `first_block_size ≥ length of block b`), so reading the
whole block first is faithful. -/

/-- `num_blocks = div_ceil(N, ChunkSize)` (`partition.c` line 54). -/
def numBlocks (N : Nat) : Nat := div_ceil N ChunkSize

/-- `avg_block_size = N / num_blocks` (line 55). -/
def avgBlock (N : Nat) : Nat := N / numBlocks N

/-- `remainder = N % num_blocks` (line 56). -/
def remBlocks (N : Nat) : Nat := N % numBlocks N

/-- Block lengths: the first `remainder` blocks get one extra tuple
(`length = avg_block_size + (remainder > 0 && remainder--)`, line 103). -/
def lenB (N b : Nat) : Nat := avgBlock N + (if b < remBlocks N then 1 else 0)

/-- Start offset of block `b` within the sub-relation. -/
def fromB (N b : Nat) : Nat := sumR (lenB N) b

/-- `first_block_size = avg_block_size + (remainder > 0)` (line 57). -/
def fbs (N : Nat) : Nat := lenB N 0

theorem numBlocks_pos {N : Nat} (h : 1 ≤ N) : 1 ≤ numBlocks N := by
  unfold numBlocks div_ceil
  by_cases hm : N % ChunkSize > 0
  · rw [if_pos hm]
    exact Nat.le_add_left 1 _
  · rw [if_neg hm]
    have hdvd : ChunkSize ∣ N := Nat.dvd_of_mod_eq_zero (by omega)
    have : 1 ≤ N / ChunkSize :=
      (Nat.one_le_div_iff (by decide)).mpr (Nat.le_of_dvd (by omega) hdvd)
    omega

theorem numBlocks_le {N : Nat} (h : 1 ≤ N) : numBlocks N ≤ N := by
  unfold numBlocks div_ceil
  have h1 : N / ChunkSize ≤ N := Nat.div_le_self N ChunkSize
  by_cases hm : N % ChunkSize > 0
  · rw [if_pos hm]
    have h2 : N / ChunkSize < N := Nat.div_lt_self (by omega) (by decide)
    omega
  · rw [if_neg hm]; omega

theorem avgBlock_pos {N : Nat} (h : 1 ≤ N) : 1 ≤ avgBlock N := by
  unfold avgBlock
  exact (Nat.one_le_div_iff (numBlocks_pos h)).mpr (numBlocks_le h)

theorem remBlocks_lt {N : Nat} (h : 1 ≤ N) : remBlocks N < numBlocks N :=
  Nat.mod_lt _ (numBlocks_pos h)

theorem fromB_succ (N b : Nat) : fromB N (b+1) = fromB N b + lenB N b :=
  sumR_succ _ b

theorem fromB_total {N : Nat} (h : 1 ≤ N) : fromB N (numBlocks N) = N := by
  have key : ∀ b, b ≤ numBlocks N →
      fromB N b = b * avgBlock N + min b (remBlocks N) := by
    intro b hb
    induction b with
    | zero => simp [fromB, sumR]
    | succ k ih =>
      rw [fromB_succ, ih (by omega), lenB]
      rcases Nat.lt_or_ge k (remBlocks N) with h2 | h2
      · rw [if_pos h2]
        have : min k (remBlocks N) = k := by omega
        have h3 : min (k+1) (remBlocks N) = k+1 := by omega
        rw [this, h3]; ring
      · rw [if_neg (by omega)]
        have : min k (remBlocks N) = remBlocks N := by omega
        have h3 : min (k+1) (remBlocks N) = remBlocks N := by omega
        rw [this, h3]; ring
  rw [key _ (le_refl _)]
  have h1 := remBlocks_lt h
  have h2 : min (numBlocks N) (remBlocks N) = remBlocks N := by omega
  rw [h2]
  show numBlocks N * (N / numBlocks N) + N % numBlocks N = N
  exact Nat.div_add_mod N (numBlocks N)

theorem lenB_le_fbs (N b : Nat) : lenB N b ≤ fbs N := by
  unfold fbs lenB
  by_cases hb : b < remBlocks N
  · rw [if_pos hb, if_pos (by omega)]
  · rw [if_neg hb]
    by_cases h0 : 0 < remBlocks N <;> simp [h0]

theorem lenB_pos {N : Nat} (h : 1 ≤ N) (b : Nat) : 1 ≤ lenB N b := by
  have := avgBlock_pos h
  unfold lenB
  omega

theorem fbs_le_fromB {N : Nat} (b : Nat) (hb : 1 ≤ b) : fbs N ≤ fromB N b := by
  have : fromB N 1 = fbs N := by
    unfold fromB fbs
    rw [show (1:Nat) = 0 + 1 from rfl, sumR_succ, sumR_zero]
    omega
  calc fbs N = fromB N 1 := this.symm
    _ ≤ fromB N b := by
      unfold fromB
      exact sumR_mono _ hb

/-- Read `len` cells of `arr` starting at `base`, as a list. -/
def readBlock (arr : Nat → Tuple) (base len : Nat) : List Tuple :=
  (List.range len).map (fun j => arr (base + j))

/-- Overwrite cells `base, …, base + l.length - 1` of `arr` with `l`. -/
def setSeg (arr : Nat → Tuple) (base : Nat) (l : List Tuple) : Nat → Tuple :=
  fun i => if base ≤ i ∧ i - base < l.length then l.getD (i - base) dflt
           else arr i

theorem setSeg_lt (arr : Nat → Tuple) (base : Nat) (l : List Tuple) {i : Nat}
    (h : i < base) : setSeg arr base l i = arr i := by
  unfold setSeg
  rw [if_neg (by omega)]

theorem setSeg_ge (arr : Nat → Tuple) (base : Nat) (l : List Tuple) {i : Nat}
    (h : base + l.length ≤ i) : setSeg arr base l i = arr i := by
  unfold setSeg
  rw [if_neg (by omega)]

theorem getD_range (l : List Tuple) :
    (List.range l.length).map (fun j => l.getD j dflt) = l := by
  induction l with
  | nil => rfl
  | cons t rest ih =>
    rw [List.length_cons, List.range_succ_eq_map, List.map_cons, List.map_map]
    have : List.map ((fun j => (t :: rest).getD j dflt) ∘ Nat.succ)
        (List.range rest.length)
        = List.map (fun j => rest.getD j dflt) (List.range rest.length) :=
      List.map_congr_left (fun j _ => rfl)
    rw [this, ih]
    rfl

theorem readBlock_setSeg_self (arr : Nat → Tuple) (base : Nat)
    (l : List Tuple) : readBlock (setSeg arr base l) base l.length = l := by
  unfold readBlock
  have : ∀ j ∈ List.range l.length,
      setSeg arr base l (base + j) = l.getD j dflt := by
    intro j hj
    have hjl : j < l.length := by simpa using hj
    unfold setSeg
    rw [if_pos (by omega)]
    congr 1
    omega
  rw [List.map_congr_left this, getD_range]

theorem readBlock_congr {arr arr2 : Nat → Tuple} (base len : Nat)
    (h : ∀ i, base ≤ i → i < base + len → arr i = arr2 i) :
    readBlock arr base len = readBlock arr2 base len := by
  unfold readBlock
  exact List.map_congr_left (fun j hj => h (base + j) (by omega)
    (by simp at hj; omega))

theorem readBlock_length (arr : Nat → Tuple) (base len : Nat) :
    (readBlock arr base len).length = len := by
  simp [readBlock]

theorem readBlock_add (arr : Nat → Tuple) (base x y : Nat) :
    readBlock arr base (x + y)
      = readBlock arr base x ++ readBlock arr (base + x) y := by
  unfold readBlock
  rw [List.range_add, List.map_append, List.map_map]
  congr 1
  exact List.map_congr_left (fun j _ => by
    show arr (base + (x + j)) = arr (base + x + j)
    congr 1
    omega)

/-- A sub-block position record (`block_t` of `types.h`); `stop` embeds
the C field `end` (a Lean keyword). -/
structure BlkPos where
  start : Nat
  stop : Nat
deriving DecidableEq, Repr

/-- Position info of the `G` sub-blocks of one block
(`partition.c` lines 150-158): with `p = m*sub_block_partitions`,
`q = p + sub_block_partitions`, `r = (block==0 ? N : from) - first_block_size`,
`Pos[block][m] = { r + Histo[p], r + (q == fanout ? length : Histo[q]) }`
where `Histo` holds the block's prefix sums at this point. -/
def posOfBlock (f : Tuple → Nat) (G spp fanout N firstbs frm len b : Nat)
    (blk : List Tuple) : List BlkPos :=
  (List.range G).map (fun m =>
    { start := (if b = 0 then N else frm) - firstbs
        + prefixHisto f blk (m * spp),
      stop := (if b = 0 then N else frm) - firstbs
        + (if (m+1) * spp = fanout then len
           else prefixHisto f blk ((m+1) * spp)) })

/-- One iteration of the ICP block loop for block `j+1` (blocks after the
first): read the block from the array, record its positions, scatter it
over the previous block's slot. -/
def ICPfold (f : Tuple → Nat) (G spp fanout N : Nat)
    (st : (Nat → Tuple) × List (List BlkPos)) (j : Nat) :
    (Nat → Tuple) × List (List BlkPos) :=
  let b := j + 1
  let blk := readBlock st.1 (fromB N b) (lenB N b)
  (setSeg st.1 (fromB N b - fbs N) (scatterList f blk),
   st.2 ++ [posOfBlock f G spp fanout N (fbs N) (fromB N b) (lenB N b) b blk])

/-- The whole ICP pass over one sub-relation (radix > 0): block 0 is
scattered into the auxiliary buffer `TmpBlock`, blocks `1 … nb-1` are
scattered in place, and finally `TmpBlock` is copied over the last
block's slot (`partition.c` lines 96-183). -/
def ICPrun (f : Tuple → Nat) (G spp fanout : Nat) (l : List Tuple) :
    (Nat → Tuple) × List (List BlkPos) :=
  let N := l.length
  let arr0 : Nat → Tuple := fun i => l.getD i dflt
  let blk0 := readBlock arr0 0 (fbs N)
  let st := (List.range (numBlocks N - 1)).foldl (ICPfold f G spp fanout N)
    (arr0, [posOfBlock f G spp fanout N (fbs N) 0 (fbs N) 0 blk0])
  (setSeg st.1 (N - fbs N) (scatterList f blk0), st.2)

/-- `ICP` from `partition.c`: returns immediately when `radix == 0`,
otherwise partitions with `fanout = 1 << radix`, `mask = fanout-1`,
hash `HASHx(key, mask, shift)`, and `sub_block_partitions = fanout/G`. -/
def ICP (radix shift G : Nat) (l : List Tuple) :
    (Nat → Tuple) × List (List BlkPos) :=
  if radix = 0 then (fun i => l.getD i dflt, [])
  else ICPrun (fun t => HASHx t.key ((1 <<< radix) - 1) shift)
    G ((1 <<< radix) / G) (1 <<< radix) l

/-- The sub-relation's array after ICP. -/
def ICParr (radix shift G : Nat) (l : List Tuple) : Nat → Tuple :=
  (ICP radix shift G l).1

/-- The sub-relation read back as a list after ICP. -/
def ICPlist (radix shift G : Nat) (l : List Tuple) : List Tuple :=
  readBlock (ICParr radix shift G l) 0 l.length

theorem ICP_zero (shift G : Nat) (l : List Tuple) :
    ICPlist 0 shift G l = l := by
  unfold ICPlist ICParr ICP
  rw [if_pos rfl]
  show (List.range l.length).map (fun j => l.getD (0 + j) dflt) = l
  have : ∀ j ∈ List.range l.length,
      l.getD (0 + j) dflt = l.getD j dflt := by
    intro j _
    rw [Nat.zero_add]
  rw [List.map_congr_left this, getD_range]

/-- Invariant of the ICP block loop: after processing blocks `1 … j`,
cells at or above `from_{j+1} - first_block_size` still hold the input,
each processed block's slot holds its scattered image, and the recorded
positions are those of the original blocks. -/
theorem ICPfold_invariant (f : Tuple → Nat) (G spp fanout : Nat)
    (l : List Tuple) (hl : 1 ≤ l.length) (j : Nat)
    (hj : j ≤ numBlocks l.length - 1) :
    (∀ i, fromB l.length (j+1) - fbs l.length ≤ i →
      ((List.range j).foldl (ICPfold f G spp fanout l.length)
        (fun i => l.getD i dflt,
         [posOfBlock f G spp fanout l.length (fbs l.length) 0 (fbs l.length) 0
           (readBlock (fun i => l.getD i dflt) 0 (fbs l.length))])).1 i
        = l.getD i dflt)
    ∧ (∀ b, 1 ≤ b → b ≤ j →
      readBlock ((List.range j).foldl (ICPfold f G spp fanout l.length)
        (fun i => l.getD i dflt,
         [posOfBlock f G spp fanout l.length (fbs l.length) 0 (fbs l.length) 0
           (readBlock (fun i => l.getD i dflt) 0 (fbs l.length))])).1
        (fromB l.length b - fbs l.length) (lenB l.length b)
        = scatterList f (readBlock (fun i => l.getD i dflt)
            (fromB l.length b) (lenB l.length b)))
    ∧ ((List.range j).foldl (ICPfold f G spp fanout l.length)
        (fun i => l.getD i dflt,
         [posOfBlock f G spp fanout l.length (fbs l.length) 0 (fbs l.length) 0
           (readBlock (fun i => l.getD i dflt) 0 (fbs l.length))])).2
        = (List.range (j+1)).map (fun b =>
            posOfBlock f G spp fanout l.length (fbs l.length)
              (fromB l.length b) (lenB l.length b) b
              (readBlock (fun i => l.getD i dflt)
                (fromB l.length b) (lenB l.length b))) := by
  set N := l.length with hN
  set arr0 : Nat → Tuple := fun i => l.getD i dflt with harr0
  induction j with
  | zero =>
    refine ⟨fun i _ => rfl, fun b hb1 hb2 => by omega, ?_⟩
    rw [show (0:Nat)+1 = 1 from rfl, show List.range 1 = [0] from rfl,
      List.map_cons, List.map_nil]
    have h0 : fromB N 0 = 0 := rfl
    have hl0 : lenB N 0 = fbs N := rfl
    rw [h0, hl0]
    rfl
  | succ k ih =>
    obtain ⟨ihA, ihB, ihC⟩ := ih (by omega)
    set st := (List.range k).foldl (ICPfold f G spp fanout N)
      (arr0, [posOfBlock f G spp fanout N (fbs N) 0 (fbs N) 0
        (readBlock arr0 0 (fbs N))]) with hst
    have hfold : (List.range (k+1)).foldl (ICPfold f G spp fanout N)
        (arr0, [posOfBlock f G spp fanout N (fbs N) 0 (fbs N) 0
          (readBlock arr0 0 (fbs N))])
        = ICPfold f G spp fanout N st k := by
      rw [List.range_succ, List.foldl_append, List.foldl_cons, List.foldl_nil]
    -- the k+1-st block read from the current array is the original block
    have hblk : readBlock st.1 (fromB N (k+1)) (lenB N (k+1))
        = readBlock arr0 (fromB N (k+1)) (lenB N (k+1)) := by
      apply readBlock_congr
      intro i hi _
      exact ihA i (by omega)
    have hlen : (scatterList f (readBlock st.1 (fromB N (k+1))
        (lenB N (k+1)))).length = lenB N (k+1) := by
      rw [scatterList_length, readBlock_length]
    have hfbs_le : fbs N ≤ fromB N (k+1) := fbs_le_fromB (k+1) (by omega)
    have hnext : fromB N (k+1+1) = fromB N (k+1) + lenB N (k+1) :=
      fromB_succ N (k+1)
    refine ⟨?_, ?_, ?_⟩
    · -- untouched region
      intro i hi
      rw [hfold]
      show setSeg st.1 (fromB N (k+1) - fbs N)
        (scatterList f (readBlock st.1 (fromB N (k+1)) (lenB N (k+1)))) i
        = arr0 i
      rw [setSeg_ge _ _ _ (by rw [hlen]; omega)]
      exact ihA i (by omega)
    · -- processed slots
      intro b hb1 hb2
      rw [hfold]
      rcases Nat.lt_or_ge b (k+1) with hlt | hge
      · -- old block: region untouched by this step
        have hmono : fromB N (b+1) ≤ fromB N (k+1) := by
          unfold fromB
          exact sumR_mono _ (by omega)
        have hreg : ∀ i, fromB N b - fbs N ≤ i →
            i < fromB N b - fbs N + lenB N b →
            setSeg st.1 (fromB N (k+1) - fbs N)
              (scatterList f (readBlock st.1 (fromB N (k+1))
                (lenB N (k+1)))) i = st.1 i := by
          intro i _ hi2
          apply setSeg_lt
          have hb' : fbs N ≤ fromB N b := fbs_le_fromB b hb1
          have := fromB_succ N b
          omega
        show readBlock (setSeg st.1 (fromB N (k+1) - fbs N)
          (scatterList f (readBlock st.1 (fromB N (k+1)) (lenB N (k+1)))))
          (fromB N b - fbs N) (lenB N b)
          = scatterList f (readBlock arr0 (fromB N b) (lenB N b))
        rw [readBlock_congr _ _ (fun i h1 h2 => hreg i h1 h2)]
        exact ihB b hb1 (by omega)
      · -- the block processed this step
        have hbeq : b = k + 1 := by omega
        subst hbeq
        show readBlock (setSeg st.1 (fromB N (k+1) - fbs N)
          (scatterList f (readBlock st.1 (fromB N (k+1)) (lenB N (k+1)))))
          (fromB N (k+1) - fbs N) (lenB N (k+1))
          = scatterList f (readBlock arr0 (fromB N (k+1)) (lenB N (k+1)))
        have hset := readBlock_setSeg_self st.1 (fromB N (k+1) - fbs N)
          (scatterList f (readBlock st.1 (fromB N (k+1)) (lenB N (k+1))))
        rw [hlen] at hset
        rw [hset, hblk]
    · -- recorded positions
      rw [hfold]
      show st.2 ++ [posOfBlock f G spp fanout N (fbs N) (fromB N (k+1))
        (lenB N (k+1)) (k+1) (readBlock st.1 (fromB N (k+1)) (lenB N (k+1)))]
        = _
      rw [hblk, ihC, List.range_succ (n := k+1), List.map_append]
      rfl

/-- Layout of the array after a full ICP pass: every block `b ≥ 1` sits,
scattered, in the slot starting at `from_b - first_block_size`; block 0
sits, scattered, in the last slot `[N - first_block_size, N)`; cells at
`N` and beyond are untouched; and the recorded positions are those
computed from the original blocks. -/
theorem ICPrun_layout (f : Tuple → Nat) (G spp fanout : Nat)
    (l : List Tuple) (hl : 1 ≤ l.length) :
    (∀ b, 1 ≤ b → b < numBlocks l.length →
      readBlock (ICPrun f G spp fanout l).1
        (fromB l.length b - fbs l.length) (lenB l.length b)
        = scatterList f (readBlock (fun i => l.getD i dflt)
            (fromB l.length b) (lenB l.length b)))
    ∧ (readBlock (ICPrun f G spp fanout l).1
        (l.length - fbs l.length) (fbs l.length)
        = scatterList f (readBlock (fun i => l.getD i dflt) 0 (fbs l.length)))
    ∧ (∀ i, l.length ≤ i → (ICPrun f G spp fanout l).1 i = l.getD i dflt)
    ∧ ((ICPrun f G spp fanout l).2
        = (List.range (numBlocks l.length)).map (fun b =>
            posOfBlock f G spp fanout l.length (fbs l.length)
              (fromB l.length b) (lenB l.length b) b
              (readBlock (fun i => l.getD i dflt)
                (fromB l.length b) (lenB l.length b)))) := by
  set N := l.length with hN
  set arr0 : Nat → Tuple := fun i => l.getD i dflt with harr0
  obtain ⟨ihA, ihB, ihC⟩ := ICPfold_invariant f G spp fanout l hl
    (numBlocks N - 1) (le_refl _)
  have hnb := numBlocks_pos (N := N) hl
  have hsucc : numBlocks N - 1 + 1 = numBlocks N := by omega
  rw [hsucc] at ihA ihC
  have htot : fromB N (numBlocks N) = N := fromB_total hl
  rw [htot] at ihA
  set st := (List.range (numBlocks N - 1)).foldl (ICPfold f G spp fanout N)
    (arr0, [posOfBlock f G spp fanout N (fbs N) 0 (fbs N) 0
      (readBlock arr0 0 (fbs N))]) with hst
  have hrun1 : (ICPrun f G spp fanout l).1
      = setSeg st.1 (N - fbs N) (scatterList f (readBlock arr0 0 (fbs N))) :=
    rfl
  have hrun2 : (ICPrun f G spp fanout l).2 = st.2 := rfl
  have htmplen : (scatterList f (readBlock arr0 0 (fbs N))).length = fbs N := by
    rw [scatterList_length, readBlock_length]
  have hfbsN : fbs N ≤ N := by
    calc fbs N ≤ fromB N 1 := fbs_le_fromB 1 (by omega)
      _ ≤ fromB N (numBlocks N) := sumR_mono _ (by omega)
      _ = N := htot
  refine ⟨?_, ?_, ?_, ?_⟩
  · intro b hb1 hb2
    rw [hrun1]
    have hfbsb : fbs N ≤ fromB N b := fbs_le_fromB b hb1
    have hmono : fromB N (b+1) ≤ fromB N (numBlocks N) := sumR_mono _ (by omega)
    have hnextb : fromB N (b+1) = fromB N b + lenB N b := fromB_succ N b
    have hreg : ∀ i, fromB N b - fbs N ≤ i →
        i < fromB N b - fbs N + lenB N b →
        setSeg st.1 (N - fbs N)
          (scatterList f (readBlock arr0 0 (fbs N))) i = st.1 i := by
      intro i _ hi2
      apply setSeg_lt
      omega
    rw [readBlock_congr _ _ (fun i h1 h2 => hreg i h1 h2)]
    exact ihB b hb1 (by omega)
  · rw [hrun1]
    have hset := readBlock_setSeg_self st.1 (N - fbs N)
      (scatterList f (readBlock arr0 0 (fbs N)))
    rw [htmplen] at hset
    exact hset
  · intro i hi
    rw [hrun1, setSeg_ge _ _ _ (by rw [htmplen]; omega)]
    exact ihA i (by omega)
  · rw [hrun2, ihC]

theorem getD_range_take (l : List Tuple) (len : Nat) (h : len ≤ l.length) :
    (List.range len).map (fun j => l.getD j dflt) = l.take len := by
  induction l generalizing len with
  | nil =>
    have : len = 0 := by simpa using h
    subst this; rfl
  | cons t rest ih =>
    cases len with
    | zero => rfl
    | succ m =>
      rw [List.range_succ_eq_map, List.map_cons, List.map_map]
      have harg : List.map ((fun j => (t :: rest).getD j dflt) ∘ Nat.succ)
          (List.range m) = List.map (fun j => rest.getD j dflt)
            (List.range m) :=
        List.map_congr_left (fun j _ => rfl)
      rw [harg, ih m (by simpa using h)]
      rfl

/-- Reading from the list-backed array equals the list slice. -/
theorem readBlock_getD (l : List Tuple) (base len : Nat)
    (h : base + len ≤ l.length) :
    readBlock (fun i => l.getD i dflt) base len = segOf l base len := by
  unfold readBlock segOf
  have step : ∀ j, l.getD (base + j) dflt = (l.drop base).getD j dflt := by
    intro j
    rw [List.getD_eq_getElem?_getD, List.getD_eq_getElem?_getD,
      List.getElem?_drop]
  rw [List.map_congr_left (fun j _ => step j)]
  exact getD_range_take _ len (by simp; omega)

/-- The hash function ICP uses (`HASHx(key, fanout-1, shift)`). -/
def icpHash (radix shift : Nat) : Tuple → Nat :=
  fun t => HASHx t.key ((1 <<< radix) - 1) shift

theorem icpHash_lt (radix shift : Nat) (t : Tuple) :
    icpHash radix shift t < 1 <<< radix := by
  unfold icpHash HASHx
  have h1 : (t.key >>> shift) &&& ((1 <<< radix) - 1) ≤ (1 <<< radix) - 1 :=
    Nat.and_le_right
  have h2 : 0 < 1 <<< radix := by
    rw [Nat.one_shiftLeft]
    exact Nat.two_pow_pos radix
  omega

/-- Original block `b` of a sub-relation, as a list slice. -/
def origBlk (l : List Tuple) (b : Nat) : List Tuple :=
  segOf l (fromB l.length b) (lenB l.length b)

theorem fromB_add_lenB_le (l : List Tuple) {b : Nat}
    (hl : 1 ≤ l.length) (hb : b < numBlocks l.length) :
    fromB l.length b + lenB l.length b ≤ l.length := by
  have h1 : fromB l.length (b+1) = fromB l.length b + lenB l.length b :=
    fromB_succ _ b
  have h2 : fromB l.length (b+1) ≤ fromB l.length (numBlocks l.length) :=
    sumR_mono _ (by omega)
  rw [fromB_total hl] at h2
  omega

/-- The layout theorem restated with list slices of the input. -/
theorem ICPrun_layout_orig (f : Tuple → Nat) (G spp fanout : Nat)
    (l : List Tuple) (hl : 1 ≤ l.length) :
    (∀ b, 1 ≤ b → b < numBlocks l.length →
      readBlock (ICPrun f G spp fanout l).1
        (fromB l.length b - fbs l.length) (lenB l.length b)
        = scatterList f (origBlk l b))
    ∧ (readBlock (ICPrun f G spp fanout l).1
        (l.length - fbs l.length) (fbs l.length)
        = scatterList f (origBlk l 0))
    ∧ (∀ i, l.length ≤ i → (ICPrun f G spp fanout l).1 i = l.getD i dflt)
    ∧ ((ICPrun f G spp fanout l).2
        = (List.range (numBlocks l.length)).map (fun b =>
            posOfBlock f G spp fanout l.length (fbs l.length)
              (fromB l.length b) (lenB l.length b) b (origBlk l b))) := by
  obtain ⟨h1, h2, h3, h4⟩ := ICPrun_layout f G spp fanout l hl
  have horig : ∀ b, b < numBlocks l.length →
      readBlock (fun i => l.getD i dflt)
        (fromB l.length b) (lenB l.length b) = origBlk l b := by
    intro b hb
    exact readBlock_getD l _ _ (fromB_add_lenB_le l hl hb)
  refine ⟨?_, ?_, h3, ?_⟩
  · intro b hb1 hb2
    rw [h1 b hb1 hb2, horig b hb2]
  · have h0 : fromB l.length 0 = 0 := rfl
    have hfb : lenB l.length 0 = fbs l.length := rfl
    rw [h2]
    have := horig 0 (by exact numBlocks_pos hl)
    rw [h0, hfb] at this
    rw [this]
  · rw [h4]
    exact List.map_congr_left (fun b hb => by
      rw [horig b (by simpa using hb)])

/-- The front region `[0, from_{j+1} - first_block_size)` of the array
after ICP holds blocks `1 … j`, each scattered, consecutively. -/
theorem ICPrun_front (f : Tuple → Nat) (G spp fanout : Nat)
    (l : List Tuple) (hl : 1 ≤ l.length) (j : Nat)
    (hj : j ≤ numBlocks l.length - 1) :
    readBlock (ICPrun f G spp fanout l).1 0
      (fromB l.length (j+1) - fbs l.length)
      = (List.range j).flatMap
          (fun i => scatterList f (origBlk l (i+1))) := by
  obtain ⟨h1, _, _, _⟩ := ICPrun_layout_orig f G spp fanout l hl
  induction j with
  | zero =>
    have : fromB l.length 1 = fbs l.length := by
      unfold fromB fbs
      rw [show (1:Nat) = 0 + 1 from rfl, sumR_succ, sumR_zero]
      omega
    rw [this, Nat.sub_self]
    rfl
  | succ k ih =>
    have hnb := numBlocks_pos (N := l.length) hl
    have hfbsk : fbs l.length ≤ fromB l.length (k+1) :=
      fbs_le_fromB (k+1) (by omega)
    have hnext : fromB l.length (k+1+1)
        = fromB l.length (k+1) + lenB l.length (k+1) := fromB_succ _ (k+1)
    have hsplit : fromB l.length (k+1+1) - fbs l.length
        = (fromB l.length (k+1) - fbs l.length) + lenB l.length (k+1) := by
      omega
    rw [hsplit, readBlock_add, ih (by omega), List.range_succ,
      List.flatMap_append]
    congr 1
    rw [show (0 + (fromB l.length (k+1) - fbs l.length))
      = fromB l.length (k+1) - fbs l.length from by omega]
    rw [h1 (k+1) (by omega) (by omega)]
    simp

/-- The array after a full ICP pass, read back over `[0, N)`: blocks
`1 … nb-1` scattered, then block 0 scattered in the last slot. -/
theorem ICPrun_list (f : Tuple → Nat) (G spp fanout : Nat)
    (l : List Tuple) (hl : 1 ≤ l.length) :
    readBlock (ICPrun f G spp fanout l).1 0 l.length
      = ((List.range (numBlocks l.length - 1)).flatMap
          (fun i => scatterList f (origBlk l (i+1))))
        ++ scatterList f (origBlk l 0) := by
  obtain ⟨_, h2, _, _⟩ := ICPrun_layout_orig f G spp fanout l hl
  have hnb := numBlocks_pos (N := l.length) hl
  have hfbsN : fbs l.length ≤ l.length := by
    calc fbs l.length ≤ fromB l.length 1 := fbs_le_fromB 1 (by omega)
      _ ≤ fromB l.length (numBlocks l.length) := sumR_mono _ (by omega)
      _ = l.length := fromB_total hl
  have hsplit : l.length = (l.length - fbs l.length) + fbs l.length := by
    omega
  conv =>
    lhs
    rw [hsplit]
  rw [readBlock_add]
  have hfront := ICPrun_front f G spp fanout l hl (numBlocks l.length - 1)
    (le_refl _)
  have hnbeq : numBlocks l.length - 1 + 1 = numBlocks l.length := by omega
  rw [hnbeq, fromB_total hl] at hfront
  rw [hfront]
  congr 1
  rw [show (0 + (l.length - fbs l.length)) = l.length - fbs l.length from
    by omega]
  exact h2

/-- The blocks of `l`, rotated so block 0 comes last, concatenate to a
permutation of `l`. -/
theorem origBlk_rotation_perm (l : List Tuple) (hl : 1 ≤ l.length) :
    List.Perm
      (((List.range (numBlocks l.length - 1)).flatMap
          (fun i => origBlk l (i+1))) ++ origBlk l 0) l := by
  have hnb := numBlocks_pos (N := l.length) hl
  have hall : (List.range (numBlocks l.length)).flatMap
      (fun b => origBlk l b) = l := by
    have := flatMap_segOf l (lenB l.length) (numBlocks l.length)
      (fromB_total hl)
    unfold origBlk
    have harg : ∀ b, segOf l (fromB l.length b) (lenB l.length b)
        = segOf l (sumR (lenB l.length) b) (lenB l.length b) := fun b => rfl
    rw [show (fun b => segOf l (fromB l.length b) (lenB l.length b))
      = (fun b => segOf l (sumR (lenB l.length) b) (lenB l.length b)) from
      funext harg]
    exact this
  have hrot : (List.range (numBlocks l.length)).flatMap (fun b => origBlk l b)
      = origBlk l 0 ++ (List.range (numBlocks l.length - 1)).flatMap
          (fun i => origBlk l (i+1)) := by
    have : numBlocks l.length = 1 + (numBlocks l.length - 1) := by omega
    conv =>
      lhs
      rw [this]
    rw [List.range_add, List.flatMap_append]
    congr 1
    · rw [show List.range 1 = [0] from rfl]
      simp
    · rw [List.flatMap_map]
      exact List.flatMap_congr (fun i _ => by rw [Nat.add_comm 1 i])
  conv =>
    rhs
    rw [← hall, hrot]
  exact List.perm_append_comm

/-- Pairwise-permutation congruence for concatenations. -/
theorem flatMap_perm_of_perm (is : List Nat) (f g : Nat → List Tuple)
    (h : ∀ i ∈ is, List.Perm (f i) (g i)) :
    List.Perm (is.flatMap f) (is.flatMap g) := by
  induction is with
  | nil => rfl
  | cons i rest ih =>
    rw [List.flatMap_cons, List.flatMap_cons]
    exact (h i (by simp)).append (ih (fun x hx => h x (by simp [hx])))

/-- ICP reorders each sub-relation by a permutation (the multiset of
tuples is preserved). -/
theorem ICPlist_perm (radix shift G : Nat) (l : List Tuple)
    (hl : 1 ≤ l.length) : List.Perm (ICPlist radix shift G l) l := by
  by_cases hr : radix = 0
  · subst hr
    rw [ICP_zero]
  · have hrw : ICPlist radix shift G l
        = readBlock (ICPrun (icpHash radix shift) G ((1 <<< radix) / G)
            (1 <<< radix) l).1 0 l.length := by
      unfold ICPlist ICParr ICP icpHash
      rw [if_neg hr]
    rw [hrw, ICPrun_list _ _ _ _ l hl]
    refine List.Perm.trans (List.Perm.append ?_ ?_)
      (origBlk_rotation_perm l hl)
    · exact flatMap_perm_of_perm _ _ _ (fun i _ =>
        scatterList_perm _ _ (1 <<< radix)
          (fun t _ => icpHash_lt radix shift t))
    · exact scatterList_perm _ _ (1 <<< radix)
        (fun t _ => icpHash_lt radix shift t)

/-- Cells at or above the sub-relation's size are never written by ICP. -/
theorem ICParr_untouched (radix shift G : Nat) (l : List Tuple)
    (hl : 1 ≤ l.length) :
    ∀ i, l.length ≤ i → ICParr radix shift G l i = l.getD i dflt := by
  intro i hi
  by_cases hr : radix = 0
  · subst hr
    rfl
  · have hrw : ICParr radix shift G l
        = (ICPrun (icpHash radix shift) G ((1 <<< radix) / G)
            (1 <<< radix) l).1 := by
      unfold ICParr ICP icpHash
      rw [if_neg hr]
    rw [hrw]
    exact (ICPrun_layout_orig _ _ _ _ l hl).2.2.1 i hi

/-- Extracting a sub-slice of an array read. -/
theorem readBlock_sub (arr : Nat → Tuple) (base len a c : Nat)
    (h : a + c ≤ len) :
    readBlock arr (base + a) c = segOf (readBlock arr base len) a c := by
  have hlen : len = a + (c + (len - a - c)) := by omega
  rw [hlen, readBlock_add, readBlock_add]
  unfold segOf
  rw [List.drop_append_of_le_length (by rw [readBlock_length]),
    List.drop_of_length_le (by rw [readBlock_length]), List.nil_append,
    List.take_append_of_le_length (by rw [readBlock_length]),
    List.take_of_length_le (by rw [readBlock_length])]

theorem origBlk_length (l : List Tuple) {b : Nat} (hl : 1 ≤ l.length)
    (hb : b < numBlocks l.length) :
    (origBlk l b).length = lenB l.length b := by
  unfold origBlk segOf
  have := fromB_add_lenB_le l hl hb
  simp
  omega

/-- Start of block `b`'s slot in the reordered array
(`(block==0 ? N : from) - first_block_size`, `partition.c` line 153). -/
def offB (N b : Nat) : Nat := (if b = 0 then N else fromB N b) - fbs N

/-- Block `b`'s slot after ICP holds its partitions concatenated in
partition order. -/
theorem ICP_block_slot (radix shift G : Nat) (l : List Tuple)
    (hl : 1 ≤ l.length) (hr : 1 ≤ radix) {b : Nat}
    (hb : b < numBlocks l.length) :
    readBlock (ICParr radix shift G l) (offB l.length b) (lenB l.length b)
      = flatGroups (icpHash radix shift) (1 <<< radix) (origBlk l b) := by
  have hrw : ICParr radix shift G l
      = (ICPrun (icpHash radix shift) G ((1 <<< radix) / G)
          (1 <<< radix) l).1 := by
    unfold ICParr ICP icpHash
    rw [if_neg (by omega)]
  obtain ⟨h1, h2, _, _⟩ := ICPrun_layout_orig (icpHash radix shift) G
    ((1 <<< radix) / G) (1 <<< radix) l hl
  have hscat : ∀ blk : List Tuple, scatterList (icpHash radix shift) blk
      = flatGroups (icpHash radix shift) (1 <<< radix) blk := fun blk =>
    scatterList_eq_flatGroups _ blk _ (fun t _ => icpHash_lt radix shift t)
  rcases Nat.eq_zero_or_pos b with hb0 | hbpos
  · subst hb0
    rw [hrw]
    unfold offB
    rw [if_pos rfl]
    have hfb : lenB l.length 0 = fbs l.length := rfl
    rw [hfb, h2, hscat]
  · rw [hrw]
    unfold offB
    rw [if_neg (by omega)]
    rw [h1 b (by omega) hb, hscat]

/-- Within block `b`'s slot, partition `p` occupies exactly the cells
between the block's prefix sums at `p` and `p+1`. -/
theorem ICP_partition_run (radix shift G : Nat) (l : List Tuple)
    (hl : 1 ≤ l.length) (hr : 1 ≤ radix) {b p : Nat}
    (hb : b < numBlocks l.length) (hp : p < 1 <<< radix) :
    readBlock (ICParr radix shift G l)
      (offB l.length b + prefixHisto (icpHash radix shift) (origBlk l b) p)
      (cntP (icpHash radix shift) (origBlk l b) p)
      = grp (icpHash radix shift) (origBlk l b) p := by
  set f := icpHash radix shift with hf
  have hbound : prefixHisto f (origBlk l b) p + cntP f (origBlk l b) p
      ≤ lenB l.length b := by
    have h1 : prefixHisto f (origBlk l b) p + cntP f (origBlk l b) p
        = prefixHisto f (origBlk l b) (p+1) := (prefixHisto_succ _ _ _).symm
    have h2 : prefixHisto f (origBlk l b) (p+1)
        ≤ prefixHisto f (origBlk l b) (1 <<< radix) := sumR_mono _ (by omega)
    have h3 : prefixHisto f (origBlk l b) (1 <<< radix)
        = (origBlk l b).length :=
      prefixHisto_total _ _ _ (fun t _ => icpHash_lt radix shift t)
    rw [origBlk_length l hl hb] at h3
    omega
  rw [readBlock_sub _ _ (lenB l.length b) _ _ hbound,
    ICP_block_slot radix shift G l hl hr hb]
  exact flatGroups_segOf f (1 <<< radix) (origBlk l b) hp

/-- The cells between the prefix sums at `a` and `a+c` hold partitions
`a, …, a+c-1` of block `b`, concatenated. -/
theorem ICP_partition_range (radix shift G : Nat) (l : List Tuple)
    (hl : 1 ≤ l.length) (hr : 1 ≤ radix) {b : Nat}
    (hb : b < numBlocks l.length) (a c : Nat) (hc : a + c ≤ 1 <<< radix) :
    readBlock (ICParr radix shift G l)
      (offB l.length b + prefixHisto (icpHash radix shift) (origBlk l b) a)
      (prefixHisto (icpHash radix shift) (origBlk l b) (a+c)
        - prefixHisto (icpHash radix shift) (origBlk l b) a)
      = (List.range c).flatMap
          (fun i => grp (icpHash radix shift) (origBlk l b) (a + i)) := by
  set f := icpHash radix shift with hf
  induction c with
  | zero =>
    rw [Nat.add_zero, Nat.sub_self]
    rfl
  | succ k ih =>
    have hmono : prefixHisto f (origBlk l b) a
        ≤ prefixHisto f (origBlk l b) (a+k) := sumR_mono _ (by omega)
    have hsucc : prefixHisto f (origBlk l b) (a+k+1)
        = prefixHisto f (origBlk l b) (a+k) + cntP f (origBlk l b) (a+k) :=
      prefixHisto_succ _ _ _
    have hsplit : prefixHisto f (origBlk l b) (a+(k+1))
          - prefixHisto f (origBlk l b) a
        = (prefixHisto f (origBlk l b) (a+k)
            - prefixHisto f (origBlk l b) a) + cntP f (origBlk l b) (a+k) := by
      rw [show a+(k+1) = a+k+1 from rfl, hsucc]
      omega
    rw [hsplit, readBlock_add, ih (by omega), List.range_succ,
      List.flatMap_append]
    congr 1
    have hbase : offB l.length b + prefixHisto f (origBlk l b) a
        + (prefixHisto f (origBlk l b) (a+k)
            - prefixHisto f (origBlk l b) a)
        = offB l.length b + prefixHisto f (origBlk l b) (a+k) := by
      omega
    rw [hbase, ICP_partition_run radix shift G l hl hr hb (by omega)]
    simp

theorem getD_map_range {α : Type} (g : Nat → α) (n b : Nat) (d : α)
    (hb : b < n) : ((List.range n).map g).getD b d = g b := by
  rw [List.getD_eq_getElem?_getD, List.getElem?_map, List.getElem?_range hb]
  rfl

/-- The recorded `Pos[b][m]` entries, with the `q == fanout` branch of
the source normalised away (`Histo[fanout]` would equal `length`). -/
theorem ICP_pos_eq (radix shift G : Nat) (l : List Tuple)
    (hl : 1 ≤ l.length) (hr : 1 ≤ radix) (hG : 0 < G)
    (hdvd : G ∣ 1 <<< radix) {b m : Nat}
    (hb : b < numBlocks l.length) (hm : m < G) :
    (((ICP radix shift G l).2.getD b []).getD m ⟨0, 0⟩ : BlkPos)
      = { start := offB l.length b
            + prefixHisto (icpHash radix shift) (origBlk l b)
                (m * ((1 <<< radix) / G)),
          stop := offB l.length b
            + prefixHisto (icpHash radix shift) (origBlk l b)
                ((m+1) * ((1 <<< radix) / G)) } := by
  have hrw : (ICP radix shift G l).2
      = (ICPrun (icpHash radix shift) G ((1 <<< radix) / G)
          (1 <<< radix) l).2 := by
    unfold ICP icpHash
    rw [if_neg (by omega)]
  obtain ⟨_, _, _, h4⟩ := ICPrun_layout_orig (icpHash radix shift) G
    ((1 <<< radix) / G) (1 <<< radix) l hl
  rw [hrw, h4, getD_map_range _ _ _ _ hb]
  unfold posOfBlock
  rw [getD_map_range _ _ _ _ hm]
  have hoff : (if b = 0 then l.length else fromB l.length b) - fbs l.length
      = offB l.length b := rfl
  rw [hoff]
  by_cases hq : (m+1) * ((1 <<< radix) / G) = 1 <<< radix
  · rw [if_pos hq, hq]
    have := prefixHisto_total (icpHash radix shift) (origBlk l b)
      (1 <<< radix) (fun t _ => icpHash_lt radix shift t)
    rw [this, origBlk_length l hl hb]
  · rw [if_neg hq]

/-- The sub-block slice addressed by `Pos[b][m]`, as the models read it. -/
def subBlock (radix shift G : Nat) (l : List Tuple) (b m : Nat) :
    List Tuple :=
  let P := ((ICP radix shift G l).2.getD b []).getD m ⟨0, 0⟩
  readBlock (ICParr radix shift G l) P.start (P.stop - P.start)

/-- `Pos[b][m]` addresses exactly the run of partitions
`[m·(fanout/G), (m+1)·(fanout/G))` of block `b`. -/
theorem subBlock_eq (radix shift G : Nat) (l : List Tuple)
    (hl : 1 ≤ l.length) (hr : 1 ≤ radix) (hG : 0 < G)
    (hdvd : G ∣ 1 <<< radix) {b m : Nat}
    (hb : b < numBlocks l.length) (hm : m < G) :
    subBlock radix shift G l b m
      = (List.range ((1 <<< radix) / G)).flatMap
          (fun i => grp (icpHash radix shift) (origBlk l b)
            (m * ((1 <<< radix) / G) + i)) := by
  unfold subBlock
  rw [ICP_pos_eq radix shift G l hl hr hG hdvd hb hm]
  have hmono : prefixHisto (icpHash radix shift) (origBlk l b)
        (m * ((1 <<< radix) / G))
      ≤ prefixHisto (icpHash radix shift) (origBlk l b)
        ((m+1) * ((1 <<< radix) / G)) :=
    sumR_mono _ (by
      have : m * ((1 <<< radix) / G) ≤ (m+1) * ((1 <<< radix) / G) :=
        Nat.mul_le_mul_right _ (by omega)
      omega)
  have hsub : offB l.length b
        + prefixHisto (icpHash radix shift) (origBlk l b)
            ((m+1) * ((1 <<< radix) / G))
      - (offB l.length b
        + prefixHisto (icpHash radix shift) (origBlk l b)
            (m * ((1 <<< radix) / G)))
      = prefixHisto (icpHash radix shift) (origBlk l b)
          ((m+1) * ((1 <<< radix) / G))
        - prefixHisto (icpHash radix shift) (origBlk l b)
            (m * ((1 <<< radix) / G)) := by
    omega
  show readBlock (ICParr radix shift G l)
      (offB l.length b + prefixHisto (icpHash radix shift) (origBlk l b)
        (m * ((1 <<< radix) / G)))
      (offB l.length b + prefixHisto (icpHash radix shift) (origBlk l b)
        ((m+1) * ((1 <<< radix) / G))
       - (offB l.length b + prefixHisto (icpHash radix shift) (origBlk l b)
        (m * ((1 <<< radix) / G)))) = _
  rw [hsub]
  have harith : (m+1) * ((1 <<< radix) / G)
      = m * ((1 <<< radix) / G) + (1 <<< radix) / G := by
    ring
  have hle : m * ((1 <<< radix) / G) + (1 <<< radix) / G ≤ 1 <<< radix := by
    have h1 : (m+1) * ((1 <<< radix) / G) ≤ G * ((1 <<< radix) / G) :=
      Nat.mul_le_mul_right _ (by omega)
    rw [Nat.mul_div_cancel' hdvd] at h1
    omega
  conv =>
    lhs
    rw [harith]
  exact ICP_partition_range radix shift G l hl hr hb
    (m * ((1 <<< radix) / G)) ((1 <<< radix) / G) hle

/-- C2: for every sub-relation of size ≥ 1 and radix in [0,16] with
fanout divisible by the number of groups, the array after ICP holds the
same multiset of tuples as before, and no cell outside the
sub-relation's own storage is modified (the auxiliary buffer is the
one-block `TmpBlock` inside `ICPrun`). -/
theorem C2_ICP_multiset_preserved (radix shift G : Nat) (l : List Tuple)
    (hsize : 1 ≤ l.length) (hradix : radix ≤ 16) (hG : 0 < G)
    (hdvd : G ∣ 1 <<< radix) :
    ((ICPlist radix shift G l : Multiset Tuple) = (l : Multiset Tuple))
    ∧ (∀ i, l.length ≤ i → ICParr radix shift G l i = l.getD i dflt) :=
  ⟨Multiset.coe_eq_coe.mpr (ICPlist_perm radix shift G l hsize),
   ICParr_untouched radix shift G l hsize⟩

/-- Witness for C2 at a concrete input: radix 1, one group, four
tuples. -/
theorem C2_ICP_multiset_preserved_witness :
    (1 ≤ ([⟨3, 30⟩, ⟨1, 10⟩, ⟨2, 20⟩, ⟨4, 40⟩] : List Tuple).length
      ∧ 1 ≤ 16 ∧ 0 < 1 ∧ 1 ∣ 1 <<< 1)
    ∧ ((ICPlist 1 0 1 [⟨3, 30⟩, ⟨1, 10⟩, ⟨2, 20⟩, ⟨4, 40⟩] : Multiset Tuple)
        = (([⟨3, 30⟩, ⟨1, 10⟩, ⟨2, 20⟩, ⟨4, 40⟩] : List Tuple) :
            Multiset Tuple)) :=
  ⟨⟨by decide, by decide, by decide, by decide⟩,
   (C2_ICP_multiset_preserved 1 0 1 [⟨3, 30⟩, ⟨1, 10⟩, ⟨2, 20⟩, ⟨4, 40⟩]
     (by decide) (by decide) (by decide) (by decide)).1⟩

/-- C3: after ICP with radix > 0, each block's partition-`p` tuples
occupy one contiguous run whose boundaries are the block's pre-ICP
prefix sums, placed at offset `(b==0 ? N : block_start) - first_block_size`;
and `Pos[b][m]` addresses exactly the run of partitions
`[m·(fanout/G), (m+1)·(fanout/G))` of block `b`. -/
theorem C3_ICP_partition_contiguity (radix shift G : Nat) (l : List Tuple)
    (hsize : 1 ≤ l.length) (hradix : 1 ≤ radix) (hG : 0 < G)
    (hdvd : G ∣ 1 <<< radix) :
    (∀ b, b < numBlocks l.length → ∀ p, p < 1 <<< radix →
      readBlock (ICParr radix shift G l)
        (offB l.length b
          + prefixHisto (icpHash radix shift) (origBlk l b) p)
        (cntP (icpHash radix shift) (origBlk l b) p)
        = grp (icpHash radix shift) (origBlk l b) p)
    ∧ (∀ b, b < numBlocks l.length → ∀ m, m < G →
      ((((ICP radix shift G l).2.getD b []).getD m ⟨0, 0⟩ : BlkPos)
        = { start := offB l.length b
              + prefixHisto (icpHash radix shift) (origBlk l b)
                  (m * ((1 <<< radix) / G)),
            stop := offB l.length b
              + prefixHisto (icpHash radix shift) (origBlk l b)
                  ((m+1) * ((1 <<< radix) / G)) })
      ∧ subBlock radix shift G l b m
          = (List.range ((1 <<< radix) / G)).flatMap
              (fun i => grp (icpHash radix shift) (origBlk l b)
                (m * ((1 <<< radix) / G) + i))) := by
  refine ⟨fun b hb p hp => ?_, fun b hb m hm => ⟨?_, ?_⟩⟩
  · exact ICP_partition_run radix shift G l hsize hradix hb hp
  · exact ICP_pos_eq radix shift G l hsize hradix hG hdvd hb hm
  · exact subBlock_eq radix shift G l hsize hradix hG hdvd hb hm

/-- Witness for C3 at a concrete input: radix 1, one group, four
tuples, block 0, sub-block 0. -/
theorem C3_ICP_partition_contiguity_witness :
    (1 ≤ ([⟨3, 30⟩, ⟨1, 10⟩, ⟨2, 20⟩, ⟨4, 40⟩] : List Tuple).length
      ∧ 1 ≤ 1 ∧ 0 < 1 ∧ 1 ∣ 1 <<< 1 ∧ 0 < numBlocks 4 ∧ 0 < 1 <<< 1)
    ∧ readBlock (ICParr 1 0 1 [⟨3, 30⟩, ⟨1, 10⟩, ⟨2, 20⟩, ⟨4, 40⟩])
        (offB 4 0 + prefixHisto (icpHash 1 0)
          (origBlk [⟨3, 30⟩, ⟨1, 10⟩, ⟨2, 20⟩, ⟨4, 40⟩] 0) 0)
        (cntP (icpHash 1 0)
          (origBlk [⟨3, 30⟩, ⟨1, 10⟩, ⟨2, 20⟩, ⟨4, 40⟩] 0) 0)
        = grp (icpHash 1 0)
            (origBlk [⟨3, 30⟩, ⟨1, 10⟩, ⟨2, 20⟩, ⟨4, 40⟩] 0) 0 :=
  ⟨⟨by decide, by decide, by decide, by decide, by decide, by decide⟩,
   (C3_ICP_partition_contiguity 1 0 1
       [⟨3, 30⟩, ⟨1, 10⟩, ⟨2, 20⟩, ⟨4, 40⟩]
       (by decide) (by decide) (by decide) (by decide)).1
     0 (by decide) 0 (by decide)⟩

/-! ## Model dispatch (`run.c` lines 76-83) and hash-table sizing -/

/-- Outcome of the model dispatch in `join_thread`.  `ColBP_IV` is
declared in `run.c` (line 19) but the dispatch below never calls it;
`modelIV` is included to state that fact. -/
inductive JoinSel where
  | modelI
  | modelII
  | modelIII
  | modelIV
  | assertFail
deriving DecidableEq, Repr

/-- The dispatch of `join_thread` (`run.c` lines 76-83):
`if (R==S) { R==0 ? I : II } else { S==0 ? III : assert(false) }`. -/
def joinDispatch (radixR radixS : Nat) : JoinSel :=
  if radixR = radixS then
    (if radixR = 0 then .modelI else .modelII)
  else
    (if radixS = 0 then .modelIII else .assertFail)

/-- C5 counterexample: `(R_bits, S_bits) = (2, 1)` satisfies
`r > s > 0`, yet the dispatch hits `assert(false)` instead of running
Model IV. -/
theorem C5_dispatch_counterexample :
    joinDispatch 2 1 = JoinSel.assertFail
      ∧ JoinSel.assertFail ≠ JoinSel.modelIV := by
  constructor
  · rfl
  · decide

/-- C5 (amended): the dispatch runs Model I on `(0,0)`, Model II on
`(r,r)` with `r > 0`, Model III on `(r,0)` with `r > 0`, and every
other combination — including `r > s > 0` — is an assertion failure;
Model IV is never dispatched. -/
theorem C5_dispatch_characterization (r s : Nat) :
    (joinDispatch r s = JoinSel.modelI ↔ (r = 0 ∧ s = 0))
    ∧ (joinDispatch r s = JoinSel.modelII ↔ (r = s ∧ 0 < r))
    ∧ (joinDispatch r s = JoinSel.modelIII ↔ (0 < r ∧ s = 0 ∧ r ≠ s))
    ∧ (joinDispatch r s = JoinSel.assertFail ↔ (r ≠ s ∧ 0 < s))
    ∧ joinDispatch r s ≠ JoinSel.modelIV := by
  unfold joinDispatch
  by_cases h1 : r = s
  · subst h1
    by_cases h2 : r = 0
    · subst h2
      refine ⟨by simp, by simp, by simp, by simp, by simp⟩
    · rw [if_pos rfl, if_neg h2]
      refine ⟨by simp [h2], by simp [h2]; omega, by simp, by simp, by simp⟩
  · rw [if_neg h1]
    by_cases h3 : s = 0
    · subst h3
      rw [if_pos rfl]
      refine ⟨by simp [h1], by simp [h1], by simp [h1]; omega,
        by simp, by simp⟩
    · rw [if_neg h3]
      refine ⟨by simp [h3], by simp [h1], by simp [h3],
        by simp [h1]; omega, by simp⟩

/-- Model II hash-table size (`buildprobe_II.c` lines 38-39):
`avg_partition = (RelR->size >> Radix.R) + 1`,
`HTable_size = 1 << lg_ceil(avg_partition)`. -/
def HTable_size_II (sizeR radixR : Nat) : Nat :=
  1 <<< lg_ceil ((sizeR >>> radixR) + 1)

/-- Model II bucket index (`HTable[k >> radix]`, `buildprobe_II.c`). -/
def bucketIndex_II (k radixR : Nat) : Nat := k >>> radixR

/-- Model I hash-table size (`buildprobe_I.c` line 23): `|R| + 1`. -/
def HTable_size_I (sizeR : Nat) : Nat := sizeR + 1

/-- Model III hash-table size (`buildprobe_III.c` line 39): `|R| + 1`. -/
def HTable_size_III (sizeR : Nat) : Nat := sizeR + 1

/-- The Model II table size as the specification words it
(invariant 5): next power of two of `⌈|R| / 2^R_bits⌉`. -/
def HTable_size_II_spec (sizeR radixR : Nat) : Nat :=
  1 <<< lg_ceil (div_ceil sizeR (2 ^ radixR))

/-- C6 counterexample: for `|R| = 16`, `R_bits = 2` the code allocates
`1 << lg_ceil(16/4 + 1) = 8` buckets, while the claimed
`next_pow2(⌈16/4⌉) = 4`. -/
theorem C6_htable_size_counterexample :
    HTable_size_II 16 2 = 8 ∧ HTable_size_II_spec 16 2 = 4
      ∧ HTable_size_II 16 2 ≠ HTable_size_II_spec 16 2 := by
  refine ⟨by decide, by decide, by decide⟩

/-- The `lg_floor` while-loop computes `⌊lg N⌋`:
`2^lg_floor(N) ≤ N < 2^(lg_floor(N)+1)` for `N ≥ 1`. -/
theorem lg_floor_go_bounds :
    ∀ fuel N, 1 ≤ N → N ≤ fuel →
      2 ^ lg_floor_go fuel N ≤ N ∧ N < 2 ^ (lg_floor_go fuel N + 1) := by
  intro fuel
  induction fuel with
  | zero => intro N h1 h2; omega
  | succ f ih =>
    intro N h1 h2
    show 2 ^ (if N >>> 1 = 0 then 0 else lg_floor_go f (N >>> 1) + 1) ≤ N
      ∧ N < 2 ^ ((if N >>> 1 = 0 then 0 else lg_floor_go f (N >>> 1) + 1) + 1)
    have hshift : N >>> 1 = N / 2 := rfl
    by_cases h0 : N >>> 1 = 0
    · rw [if_pos h0]
      rw [hshift] at h0
      constructor
      · simpa using h1
      · have : N < 2 := by omega
        simpa using this
    · rw [if_neg h0, hshift]
      rw [hshift] at h0
      have hge2 : 2 ≤ N := by omega
      have hlt : N / 2 < N := Nat.div_lt_self (by omega) (by omega)
      obtain ⟨ih1, ih2⟩ := ih (N / 2) (by omega) (by omega)
      constructor
      · rw [pow_succ]
        omega
      · rw [pow_succ, pow_succ]
        omega

theorem lg_floor_bounds {N : Nat} (h : 1 ≤ N) :
    2 ^ lg_floor N ≤ N ∧ N < 2 ^ (lg_floor N + 1) :=
  lg_floor_go_bounds N N h (le_refl N)

/-- The `lg_ceil` helper computes `⌈lg N⌉ = Nat.clog 2 N` for `N ≥ 1`. -/
theorem lg_ceil_eq_clog {N : Nat} (h : 1 ≤ N) :
    lg_ceil N = Nat.clog 2 N := by
  obtain ⟨h1, h2⟩ := lg_floor_bounds h
  unfold lg_ceil
  rw [Nat.one_shiftLeft]
  by_cases heq : 2 ^ lg_floor N = N
  · rw [if_neg (by omega)]
    have hle : Nat.clog 2 N ≤ lg_floor N :=
      (Nat.le_pow_iff_clog_le (by omega)).mp (by omega)
    have hpow := Nat.le_pow_clog (b := 2) (by omega) N
    have hpos := Nat.two_pow_pos (Nat.clog 2 N)
    have hge : lg_floor N ≤ Nat.clog 2 N := by
      by_contra hcon
      have h5 : Nat.clog 2 N + 1 ≤ lg_floor N := by omega
      have h6 : 2 ^ (Nat.clog 2 N + 1) ≤ 2 ^ lg_floor N :=
        Nat.pow_le_pow_right (by omega) h5
      rw [pow_succ] at h6
      omega
    omega
  · rw [if_pos (by omega)]
    have hlt : 2 ^ lg_floor N < N := by omega
    have hle : Nat.clog 2 N ≤ lg_floor N + 1 :=
      (Nat.le_pow_iff_clog_le (by omega)).mp (by omega)
    have hge : lg_floor N + 1 ≤ Nat.clog 2 N := by
      by_contra hcon
      have : Nat.clog 2 N ≤ lg_floor N := by omega
      have := (Nat.le_pow_iff_clog_le (x := N) (y := lg_floor N)
        (by omega)).mpr this
      omega
    omega

/-- C6 (amended): Model II allocates
`2 ^ ⌈lg(⌊|R|/2^R_bits⌋ + 1)⌉` buckets (the code computes
`(|R| >> R_bits) + 1`, a floor plus one, not a ceiling), indexed by
`key >> R_bits`; Models I and III allocate `|R| + 1` buckets.  The
claimed `next_pow2(⌈|R|/2^R_bits⌉)` agrees whenever `2^R_bits` does not
divide `|R|`. -/
theorem C6_htable_sizes (sizeR radixR : Nat) :
    HTable_size_II sizeR radixR
        = 2 ^ Nat.clog 2 (sizeR / 2 ^ radixR + 1)
    ∧ HTable_size_I sizeR = sizeR + 1
    ∧ HTable_size_III sizeR = sizeR + 1
    ∧ (¬ (2 ^ radixR ∣ sizeR) →
        HTable_size_II sizeR radixR = HTable_size_II_spec sizeR radixR) := by
  have hshift : sizeR >>> radixR = sizeR / 2 ^ radixR :=
    Nat.shiftRight_eq_div_pow sizeR radixR
  refine ⟨?_, rfl, rfl, ?_⟩
  · unfold HTable_size_II
    rw [hshift, Nat.one_shiftLeft, lg_ceil_eq_clog (Nat.le_add_left 1 _)]
  · intro hdvd
    unfold HTable_size_II HTable_size_II_spec div_ceil
    rw [hshift]
    have hmod : sizeR % 2 ^ radixR > 0 := by
      rcases Nat.eq_zero_or_pos (sizeR % 2 ^ radixR) with h0 | hpos
      · exact absurd (Nat.dvd_of_mod_eq_zero h0) hdvd
      · exact hpos
    rw [if_pos hmod]

/-- Witness for the conditional part of C6 at `|R| = 7`, `R_bits = 1`. -/
theorem C6_htable_sizes_witness :
    (¬ (2 ^ 1 ∣ 7))
      ∧ HTable_size_II 7 1 = HTable_size_II_spec 7 1 :=
  ⟨by decide, (C6_htable_sizes 7 1).2.2.2 (by decide)⟩

/-! ## Skew detector (`ICP_estimate_skew`, `partition.c` lines 195-236) -/

/-- The two-largest-entries fold (`partition.c` lines 201-205):
`if (Histo[j] > maxA) { maxB = maxA; maxA = Histo[j]; }
 else if (Histo[j] > maxB) maxB = Histo[j];`. -/
def twoMax (histo : List Nat) : Nat × Nat :=
  histo.foldl (fun mx x =>
    if x > mx.1 then (x, mx.1)
    else if x > mx.2 then (mx.1, x)
    else mx) (0, 0)

/-- Largest entry of a histogram (with `0` for an empty one). -/
def maxEntry (histo : List Nat) : Nat := histo.foldr max 0

/-- Second-largest entry: the largest after removing one occurrence of
the largest. -/
def sndEntry (histo : List Nat) : Nat :=
  maxEntry (histo.erase (maxEntry histo))

theorem maxEntry_append_single (l : List Nat) (x : Nat) :
    maxEntry (l ++ [x]) = max (maxEntry l) x := by
  unfold maxEntry
  rw [List.foldr_append]
  have key : ∀ c, List.foldr max c l = max (List.foldr max 0 l) c := by
    intro c
    induction l with
    | nil => simp
    | cons a rest ih =>
      rw [List.foldr_cons, List.foldr_cons, ih]
      omega
  rw [show List.foldr max 0 [x] = max x 0 from rfl, key]
  omega

theorem maxEntry_ge (l : List Nat) : ∀ x ∈ l, x ≤ maxEntry l := by
  induction l with
  | nil => simp
  | cons a rest ih =>
    intro x hx
    rcases List.mem_cons.mp hx with h | h
    · subst h
      unfold maxEntry
      rw [List.foldr_cons]
      omega
    · have := ih x h
      unfold maxEntry
      rw [List.foldr_cons]
      unfold maxEntry at this
      omega

theorem maxEntry_mem (l : List Nat) (h : l ≠ []) : maxEntry l ∈ l := by
  induction l with
  | nil => exact absurd rfl h
  | cons a rest ih =>
    unfold maxEntry
    rw [List.foldr_cons]
    rcases List.eq_nil_or_concat rest with h2 | h2
    · subst h2
      simp [maxEntry]
    · have hne : rest ≠ [] := by
        rintro rfl
        obtain ⟨L, b, hb⟩ := h2
        simp at hb
      rcases le_or_lt (List.foldr max 0 rest) a with h1 | h1
      · rw [max_eq_left h1]
        simp
      · rw [max_eq_right (by omega)]
        right
        exact ih hne

theorem sndEntry_append_single (l : List Nat) (x : Nat) :
    sndEntry (l ++ [x])
      = if x > maxEntry l then maxEntry l else max (sndEntry l) x := by
  unfold sndEntry
  rw [maxEntry_append_single]
  by_cases h1 : x > maxEntry l
  · rw [if_pos h1, max_eq_right (by omega)]
    have hnotmem : x ∉ l := by
      intro hmem
      have := maxEntry_ge l x hmem
      omega
    rw [List.erase_append_right _ hnotmem]
    simp
  · rw [if_neg h1, max_eq_left (by omega)]
    rcases List.eq_nil_or_concat l with hl | hl
    · subst hl
      have hx : x = 0 := by
        simp [maxEntry] at h1
        omega
      subst hx
      rfl
    · have hlne : l ≠ [] := by
        rintro rfl
        obtain ⟨L, b, hb⟩ := hl
        simp at hb
      rw [List.erase_append_left _ (maxEntry_mem l hlne),
        maxEntry_append_single]

/-- The fold of `ICP_estimate_skew` computes the largest and the
second-largest histogram entries. -/
theorem twoMax_eq (l : List Nat) :
    twoMax l = (maxEntry l, sndEntry l) := by
  induction l using List.reverseRecOn with
  | nil => rfl
  | append_singleton l x ih =>
    unfold twoMax at ih ⊢
    rw [List.foldl_append, ih, List.foldl_cons, List.foldl_nil]
    dsimp only
    rw [maxEntry_append_single, sndEntry_append_single]
    by_cases h1 : x > maxEntry l
    · rw [if_pos h1, if_pos h1, max_eq_right (by omega)]
    · rw [if_neg h1, if_neg h1, max_eq_left (by omega)]
      by_cases h2 : x > sndEntry l
      · rw [if_pos h2, max_eq_right (by omega)]
      · rw [if_neg h2, max_eq_left (by omega)]

/-- One worker's local skew decision (`ICP_estimate_skew`,
`partition.c` lines 195-214): skip unless `|S| / |R| ≥ 3`; find the two
most frequent partitions `maxA ≥ maxB` of the first block's histogram;
report (increment `HighSkewObserved`) iff
`(FanoutS > 4 && maxA+maxB > block_size*35/100) ||
 (FanoutS <= 4 && maxA > block_size/2 + 10)`. -/
def localSkewReport (sizeS sizeR fanoutS blockSize : Nat)
    (histo : List Nat) : Bool :=
  if sizeS / sizeR < 3 then false
  else
    let mx := twoMax histo
    let skew_threshold := blockSize * 35 / 100
    (decide (fanoutS > 4) && decide (mx.1 + mx.2 > skew_threshold))
      || (decide (fanoutS ≤ 4) && decide (mx.1 > blockSize / 2 + 10))

/-- C8: the worker increments the high-skew counter iff `|S|/|R| ≥ 3`
and either `fanout > 4` with `maxA + maxB > 0.35·block_size`, or
`fanout ≤ 4` with `maxA > block_size/2 + 10`, where `maxA ≥ maxB` are
the largest and second-largest histogram entries (the integer
comparisons `> block_size*35/100` and `> ⌊block_size/2⌋ + 10` are
stated in exact scaled arithmetic). -/
theorem C8_skew_report_iff (sizeS sizeR fanoutS blockSize : Nat)
    (histo : List Nat) :
    (localSkewReport sizeS sizeR fanoutS blockSize histo = true
      ↔ (3 ≤ sizeS / sizeR
          ∧ ((4 < fanoutS
                ∧ 35 * blockSize
                    < 100 * (maxEntry histo + sndEntry histo))
              ∨ (fanoutS ≤ 4
                ∧ blockSize + 20 < 2 * maxEntry histo))))
    ∧ sndEntry histo ≤ maxEntry histo
    ∧ (∀ x ∈ histo, x ≤ maxEntry histo)
    ∧ (histo = [] ∨ maxEntry histo ∈ histo)
    ∧ (∀ x ∈ histo.erase (maxEntry histo), x ≤ sndEntry histo) := by
  have hBA : sndEntry histo ≤ maxEntry histo := by
    unfold sndEntry
    by_cases h : histo.erase (maxEntry histo) = []
    · rw [h]
      exact Nat.zero_le _
    · exact maxEntry_ge histo _
        (List.mem_of_mem_erase (maxEntry_mem _ h))
  refine ⟨?_, hBA, maxEntry_ge histo, ?_,
    fun x hx => maxEntry_ge _ x hx⟩
  case refine_2 =>
    by_cases h : histo = []
    · exact Or.inl h
    · exact Or.inr (maxEntry_mem histo h)
  unfold localSkewReport
  rw [twoMax_eq]
  by_cases hsr : sizeS / sizeR < 3
  · rw [if_pos hsr]
    simp
    omega
  · rw [if_neg hsr]
    dsimp only
    constructor
    · intro h
      refine ⟨by omega, ?_⟩
      rcases Bool.or_eq_true_iff.mp h with h1 | h1
      · obtain ⟨ha, hb⟩ := Bool.and_eq_true_iff.mp h1
        left
        have ha' : 4 < fanoutS := of_decide_eq_true ha
        have hb' : maxEntry histo + sndEntry histo
            > blockSize * 35 / 100 := of_decide_eq_true hb
        refine ⟨ha', ?_⟩
        have := (Nat.div_lt_iff_lt_mul (by omega : 0 < 100)).mp hb'
        omega
      · obtain ⟨ha, hb⟩ := Bool.and_eq_true_iff.mp h1
        right
        have ha' : fanoutS ≤ 4 := of_decide_eq_true ha
        have hb' : maxEntry histo > blockSize / 2 + 10 :=
          of_decide_eq_true hb
        refine ⟨ha', ?_⟩
        have : blockSize / 2 < maxEntry histo - 10 := by omega
        have := (Nat.div_lt_iff_lt_mul (by omega : 0 < 2)).mp this
        omega
    · rintro ⟨hsr3, hcond⟩
      rcases hcond with ⟨ha, hb⟩ | ⟨ha, hb⟩
      · apply Bool.or_eq_true_iff.mpr
        left
        apply Bool.and_eq_true_iff.mpr
        refine ⟨decide_eq_true ha, decide_eq_true ?_⟩
        apply (Nat.div_lt_iff_lt_mul (by omega : 0 < 100)).mpr
        omega
      · apply Bool.or_eq_true_iff.mpr
        right
        apply Bool.and_eq_true_iff.mpr
        refine ⟨decide_eq_true ha, decide_eq_true ?_⟩
        have : blockSize / 2 < maxEntry histo - 10 := by
          apply (Nat.div_lt_iff_lt_mul (by omega : 0 < 2)).mpr
          omega
        omega

/-- Witness for C8 at concrete sizes: `|S|/|R| = 3`, fanout 8, first
block of 100 tuples with top-two frequencies 40 and 35. -/
theorem C8_skew_report_iff_witness :
    localSkewReport 30 10 8 100 [40, 35, 5] = true :=
  (C8_skew_report_iff 30 10 8 100 [40, 35, 5]).1.mpr
    ⟨by decide, Or.inl ⟨by decide, by decide⟩⟩

/-- The process-wide radix configuration (`radix_info_t`, `types.h`). -/
structure RadixInfo where
  R : Nat
  S : Nat
  user_defined : Bool
deriving DecidableEq, Repr

/-- Number of workers that reported high local skew: the value of the
atomic counter `HighSkewObserved` after every worker's
`__sync_fetch_and_add` (`partition.c` line 213). -/
def countReports (reports : List Bool) : Nat :=
  reports.countP (fun b => b)

/-- `HighSkewObserved == Threads.N` (`partition.c` lines 220, 235):
the switch condition evaluated after the first `sbarrier`. -/
def skewSwitchFires (N : Nat) (reports : List Bool) : Bool :=
  countReports reports == N

/-- One run of ICP over a worker's S sub-relation with the skew branch
(`partition.c` lines 33, 125-137, 219-230): radix 0 returns at once;
estimation runs only when the radix is not user-defined and no switch
happened yet; when all `N` workers report, worker 0 sets
`ChangedRadixS`, `Radix.S := 0`, `Radix.R := Radix.R + 1`, and ICP is
restarted with the new `Radix.S`. -/
def ICP_S (radix : RadixInfo) (changed : Bool) (N : Nat)
    (reports : List Bool) (shift G : Nat) (l : List Tuple) :
    RadixInfo × Bool × List Tuple :=
  if radix.S = 0 then (radix, changed, l)
  else if radix.user_defined || changed then
    (radix, changed, ICPlist radix.S shift G l)
  else if skewSwitchFires N reports then
    ({ R := radix.R + 1, S := 0, user_defined := radix.user_defined },
     true, ICPlist 0 shift G l)
  else (radix, changed, ICPlist radix.S shift G l)

/-- C7: with a non-user-defined radix, the switch fires iff all `N`
workers reported; it sets `S_bits := 0`, `R_bits := R_bits + 1`, raises
the changed flag, and the restarted ICP of S returns the sub-relation
untouched; with the changed flag raised no further switch can occur. -/
theorem C7_skew_switch (radix : RadixInfo) (N shift G : Nat)
    (reports : List Bool) (l : List Tuple)
    (hud : radix.user_defined = false) (hS : radix.S ≠ 0)
    (hlen : reports.length = N) :
    (skewSwitchFires N reports = true ↔ ∀ r ∈ reports, r = true)
    ∧ (skewSwitchFires N reports = true →
        ICP_S radix false N reports shift G l
          = ({ R := radix.R + 1, S := 0,
               user_defined := radix.user_defined }, true, l))
    ∧ (∀ radix2 : RadixInfo, ∀ l2 : List Tuple,
        ICP_S radix2 true N reports shift G l2
          = (radix2, true, ICPlist radix2.S shift G l2)) := by
  refine ⟨?_, ?_, ?_⟩
  · unfold skewSwitchFires countReports
    rw [beq_iff_eq, ← hlen]
    constructor
    · intro h r hr
      have := List.countP_eq_length.mp h r hr
      simpa using this
    · intro h
      exact List.countP_eq_length.mpr (fun r hr => by simp [h r hr])
  · intro hfire
    unfold ICP_S
    rw [if_neg hS, hud]
    rw [show (false || false) = false from rfl]
    rw [if_neg (by simp), if_pos hfire, ICP_zero]
  · intro radix2 l2
    unfold ICP_S
    by_cases h0 : radix2.S = 0
    · rw [if_pos h0, h0, ICP_zero]
    · rw [if_neg h0]
      rw [show (radix2.user_defined || true) = true from by simp]
      rw [if_pos rfl]

/-- Witness for C7: two workers, both reporting, radix `(R,S) = (1,1)`
not user-defined. -/
theorem C7_skew_switch_witness :
    ((⟨1, 1, false⟩ : RadixInfo).user_defined = false
      ∧ (⟨1, 1, false⟩ : RadixInfo).S ≠ 0
      ∧ ([true, true] : List Bool).length = 2
      ∧ skewSwitchFires 2 [true, true] = true)
    ∧ ICP_S ⟨1, 1, false⟩ false 2 [true, true] 0 1 [⟨1, 5⟩]
        = (⟨2, 0, false⟩, true, [⟨1, 5⟩]) :=
  ⟨⟨rfl, by decide, rfl, by decide⟩,
   (C7_skew_switch ⟨1, 1, false⟩ 2 0 1 [true, true] [⟨1, 5⟩]
     rfl (by decide) rfl).2.1 (by decide)⟩

/-! ## Command-line parsing (`extract_cmd_args`, `util/cmd_args.c`)

Arguments are embedded as `List Char`.  `sscanf(argv[i], "%u", &ival)`
is embedded by its libc contract: it returns 1 (truthy) after a
successful conversion, EOF = -1 (also truthy!) when the input is empty,
and 0 (falsy) on a matching failure; `ival` is updated only on success.
The C `double` for `--skew` is embedded as an exact rational.  The
scratch variables `ival`/`dval` are uninitialised in C; they are fields
of the parser state here. -/

/-- Maximal digit prefix of a character list. -/
def digitsPrefix : List Char → List Char
  | [] => []
  | c :: cs => if c.isDigit then c :: digitsPrefix cs else []

/-- What follows the maximal digit prefix. -/
def afterDigits : List Char → List Char
  | [] => []
  | c :: cs => if c.isDigit then afterDigits cs else c :: cs

/-- Decimal value of a digit list. -/
def valOfDigits (ds : List Char) : Nat :=
  ds.foldl (fun a c => a * 10 + (c.toNat - 48)) 0

/-- Result of a `sscanf` conversion: `ok v` (returns 1), `eofEmpty`
(empty input, returns EOF = -1, truthy in the `if`), `noMatch`
(matching failure, returns 0, falsy). -/
inductive ScanResult (α : Type) where
  | ok (v : α)
  | eofEmpty
  | noMatch
deriving DecidableEq, Repr

/-- `sscanf(s, "%u", ...)` on the argument tails this parser meets
(no leading whitespace or signs occur in them). -/
def scanU (s : List Char) : ScanResult Nat :=
  match s with
  | [] => .eofEmpty
  | c :: _ => if c.isDigit then .ok (valOfDigits (digitsPrefix s))
              else .noMatch

/-- Value of a decimal literal `digits[.digits]`, as an exact rational. -/
def ratOfChars (s : List Char) : ℚ :=
  let ip := valOfDigits (digitsPrefix s)
  match afterDigits s with
  | '.' :: rest =>
    let fds := digitsPrefix rest
    (ip : ℚ) + (valOfDigits fds : ℚ) / ((10 : ℚ) ^ fds.length)
  | _ => (ip : ℚ)

/-- `sscanf(s, "%lf", ...)` on such tails. -/
def scanF (s : List Char) : ScanResult ℚ :=
  match s with
  | [] => .eofEmpty
  | c :: _ => if c.isDigit then .ok (ratOfChars s) else .noMatch

/-- The scratch update: `ival` changes only on a successful parse. -/
def scanUVal (r : ScanResult Nat) (stale : Nat) : Nat :=
  match r with
  | .ok v => v
  | _ => stale

def scanFVal (r : ScanResult ℚ) (stale : ℚ) : ℚ :=
  match r with
  | .ok v => v
  | _ => stale

/-- The option-name extraction loop of `extract_cmd_args`
(`cmd_args.c` lines 29-38): copy characters into `buffer`, skipping
every `-`, stopping at `=` (the value tail starts after it); with no
`=` the tail is the empty string. -/
def splitArg : List Char → List Char × List Char
  | [] => ([], [])
  | c :: cs =>
    if c = '-' then splitArg cs
    else if c = '=' then ([], cs)
    else ((splitArg cs).1.cons c, (splitArg cs).2)

/-- The globals written by `extract_cmd_args`, plus its scratch
variables and the options it reports as unrecognized. -/
structure CmdState where
  threadsN : Nat
  sizeR : Nat
  sizeS : Nat
  skew : ℚ
  radixR : Nat
  radixS : Nat
  userDefined : Bool
  favorPhysicalCores : Bool
  ival : Nat
  dval : ℚ
  unrecognized : List (List Char)
deriving DecidableEq, Repr

/-- The option comparison chain of `extract_cmd_args` (`cmd_args.c`
lines 41-98).  `none` models `exit(0)` (`--sched`, `--h`, `--help`). -/
def cmdDispatch (st : CmdState) (buffer rest : List Char) :
    Option CmdState :=
  if buffer = "threads".toList ∧ scanU rest ≠ .noMatch then
    some { st with ival := scanUVal (scanU rest) st.ival,
                   threadsN := scanUVal (scanU rest) st.ival }
  else if buffer = "r".toList ∧ scanU rest ≠ .noMatch then
    some { st with ival := scanUVal (scanU rest) st.ival,
                   sizeR := scanUVal (scanU rest) st.ival }
  else if buffer = "s".toList ∧ scanU rest ≠ .noMatch then
    some { st with ival := scanUVal (scanU rest) st.ival,
                   sizeS := scanUVal (scanU rest) st.ival }
  else if buffer = "skew".toList ∧ scanF rest ≠ .noMatch then
    some { st with dval := scanFVal (scanF rest) st.dval,
                   skew := scanFVal (scanF rest) st.dval }
  else if buffer = "radix".toList ∧ scanU rest ≠ .noMatch then
    some { st with ival := scanUVal (scanU rest) st.ival,
                   userDefined := true,
                   radixR := scanUVal (scanU rest) st.ival,
                   radixS := scanUVal (scanU rest) st.ival }
  else if buffer = "radixR".toList ∧ scanU rest ≠ .noMatch then
    some { st with ival := scanUVal (scanU rest) st.ival,
                   userDefined := true,
                   radixR := scanUVal (scanU rest) st.ival }
  else if buffer = "radixS".toList ∧ scanU rest ≠ .noMatch then
    some { st with ival := scanUVal (scanU rest) st.ival,
                   userDefined := true,
                   radixS := scanUVal (scanU rest) st.ival }
  else if buffer = "sched".toList then none
  else if buffer = "favor_hyperthreading".toList then
    some { st with favorPhysicalCores := false }
  else if buffer = "h".toList ∨ buffer = "help".toList then none
  else if buffer ≠ [] then
    some { st with unrecognized := st.unrecognized ++ [buffer] }
  else some st

/-- Processing of one `argv[i]`. -/
def cmdStep (st : CmdState) (arg : List Char) : Option CmdState :=
  cmdDispatch st (splitArg arg).1 (splitArg arg).2

/-- `extract_cmd_args` over the argument vector (`argv[1…]`); `none`
models a process exit inside the loop. -/
def extract_cmd_args (args : List (List Char)) (st : CmdState) :
    Option CmdState :=
  args.foldl (fun ac arg => ac.bind (fun st2 => cmdStep st2 arg)) (some st)

theorem digitsPrefix_all {ds : List Char}
    (h : ∀ c ∈ ds, c.isDigit = true) : digitsPrefix ds = ds := by
  induction ds with
  | nil => rfl
  | cons c cs ih =>
    unfold digitsPrefix
    rw [if_pos (h c (by simp)), ih (fun x hx => h x (by simp [hx]))]

theorem afterDigits_all {ds : List Char}
    (h : ∀ c ∈ ds, c.isDigit = true) : afterDigits ds = [] := by
  induction ds with
  | nil => rfl
  | cons c cs ih =>
    unfold afterDigits
    rw [if_pos (h c (by simp))]
    exact ih (fun x hx => h x (by simp [hx]))

theorem scanU_digits {ds : List Char} (hne : ds ≠ [])
    (h : ∀ c ∈ ds, c.isDigit = true) :
    scanU ds = .ok (valOfDigits ds) := by
  cases ds with
  | nil => exact absurd rfl hne
  | cons c cs =>
    show (if c.isDigit = true
      then ScanResult.ok (valOfDigits (digitsPrefix (c :: cs)))
      else ScanResult.noMatch) = _
    rw [if_pos (h c (by simp)), digitsPrefix_all h]

theorem scanF_digits {ds : List Char} (hne : ds ≠ [])
    (h : ∀ c ∈ ds, c.isDigit = true) :
    scanF ds = .ok ((valOfDigits ds : ℚ)) := by
  cases ds with
  | nil => exact absurd rfl hne
  | cons c cs =>
    show (if c.isDigit = true then ScanResult.ok (ratOfChars (c :: cs))
      else ScanResult.noMatch) = _
    rw [if_pos (h c (by simp))]
    unfold ratOfChars
    rw [digitsPrefix_all h, afterDigits_all h]

/-- Splitting `--name=value`: dashes are skipped, the name is copied,
the tail after `=` is the value. -/
theorem splitArg_name_eq (name rest : List Char)
    (h : ∀ c ∈ name, c ≠ '-' ∧ c ≠ '=') :
    splitArg ('-' :: '-' :: (name ++ '=' :: rest)) = (name, rest) := by
  have hdash : ∀ xs : List Char, splitArg ('-' :: xs) = splitArg xs := by
    intro xs
    show (if ('-' : Char) = '-' then splitArg xs
      else if ('-' : Char) = '=' then ([], xs)
      else ((splitArg xs).1.cons '-', (splitArg xs).2)) = splitArg xs
    rw [if_pos rfl]
  rw [hdash, hdash]
  induction name with
  | nil =>
    rw [List.nil_append]
    show (if ('=' : Char) = '-' then splitArg rest
      else if ('=' : Char) = '=' then ([], rest)
      else ((splitArg rest).1.cons '=', (splitArg rest).2)) = _
    rw [if_neg (by decide), if_pos rfl]
  | cons c cs ih =>
    rw [List.cons_append]
    show (if c = '-' then splitArg (cs ++ '=' :: rest)
      else if c = '=' then ([], cs ++ '=' :: rest)
      else ((splitArg (cs ++ '=' :: rest)).1.cons c,
            (splitArg (cs ++ '=' :: rest)).2)) = _
    rw [if_neg (h c (by simp)).1, if_neg (h c (by simp)).2,
      ih (fun x hx => h x (by simp [hx]))]

/-- Splitting `--name` (no `=`): the value tail is empty, as the C
pointer ends on the terminating NUL. -/
theorem splitArg_name_noeq (name : List Char)
    (h : ∀ c ∈ name, c ≠ '-' ∧ c ≠ '=') :
    splitArg ('-' :: '-' :: name) = (name, []) := by
  have hdash : ∀ xs : List Char, splitArg ('-' :: xs) = splitArg xs := by
    intro xs
    show (if ('-' : Char) = '-' then splitArg xs
      else if ('-' : Char) = '=' then ([], xs)
      else ((splitArg xs).1.cons '-', (splitArg xs).2)) = splitArg xs
    rw [if_pos rfl]
  rw [hdash, hdash]
  induction name with
  | nil => rfl
  | cons c cs ih =>
    show (if c = '-' then splitArg cs
      else if c = '=' then ([], cs)
      else ((splitArg cs).1.cons c, (splitArg cs).2)) = _
    rw [if_neg (h c (by simp)).1, if_neg (h c (by simp)).2,
      ih (fun x hx => h x (by simp [hx]))]

/-- C10 counterexample: the two-argument form `--threads 4` does not
set `Threads.N` to 4.  `sscanf("", "%u", &ival)` returns EOF (truthy),
so `Threads.N` is assigned the stale scratch `ival` (here 5), and the
bare token `4` is then reported as an unrecognized option. -/
theorem C10_two_arg_form_counterexample :
    extract_cmd_args ["--threads".toList, "4".toList]
      { threadsN := 64, sizeR := 0, sizeS := 0, skew := 0, radixR := 0,
        radixS := 0, userDefined := false, favorPhysicalCores := true,
        ival := 5, dval := 0, unrecognized := [] }
      = some
        { threadsN := 5, sizeR := 0, sizeS := 0, skew := 0, radixR := 0,
          radixS := 0, userDefined := false, favorPhysicalCores := true,
          ival := 5, dval := 0, unrecognized := [['4']] }
    ∧ (5 : Nat) ≠ 4 := by
  constructor
  · decide
  · decide

/-- C10 (amended): the single-argument form `--name=value` sets the
corresponding parameter to the given value for every valued option
(threads, r, s, skew, radix, radixR, radixS); the two-argument form
`--name value` instead assigns the stale scratch variable (final
conjunct, shown for `--threads`). -/
theorem C10_valued_options (st : CmdState) (ds : List Char)
    (h1 : ds ≠ []) (h2 : ∀ c ∈ ds, c.isDigit = true) :
    (extract_cmd_args [('-' :: '-' :: ("threads".toList ++ '=' :: ds))] st
      = some { st with ival := valOfDigits ds,
                       threadsN := valOfDigits ds })
    ∧ (extract_cmd_args [('-' :: '-' :: ("r".toList ++ '=' :: ds))] st
      = some { st with ival := valOfDigits ds, sizeR := valOfDigits ds })
    ∧ (extract_cmd_args [('-' :: '-' :: ("s".toList ++ '=' :: ds))] st
      = some { st with ival := valOfDigits ds, sizeS := valOfDigits ds })
    ∧ (extract_cmd_args [('-' :: '-' :: ("skew".toList ++ '=' :: ds))] st
      = some { st with dval := (valOfDigits ds : ℚ),
                       skew := (valOfDigits ds : ℚ) })
    ∧ (extract_cmd_args [('-' :: '-' :: ("radix".toList ++ '=' :: ds))] st
      = some { st with ival := valOfDigits ds, userDefined := true,
                       radixR := valOfDigits ds,
                       radixS := valOfDigits ds })
    ∧ (extract_cmd_args [('-' :: '-' :: ("radixR".toList ++ '=' :: ds))] st
      = some { st with ival := valOfDigits ds, userDefined := true,
                       radixR := valOfDigits ds })
    ∧ (extract_cmd_args [('-' :: '-' :: ("radixS".toList ++ '=' :: ds))] st
      = some { st with ival := valOfDigits ds, userDefined := true,
                       radixS := valOfDigits ds })
    ∧ (extract_cmd_args [('-' :: '-' :: "threads".toList)] st
      = some { st with threadsN := st.ival }) := by
  have hstep : ∀ (tok : List Char),
      extract_cmd_args [tok] st = cmdStep st tok := fun tok => rfl
  refine ⟨?_, ?_, ?_, ?_, ?_, ?_, ?_, ?_⟩
  · rw [hstep]
    unfold cmdStep
    rw [splitArg_name_eq _ _ (by decide)]
    dsimp only
    unfold cmdDispatch
    rw [scanU_digits h1 h2]
    rw [if_pos ⟨rfl, by simp⟩]
    rfl
  · rw [hstep]
    unfold cmdStep
    rw [splitArg_name_eq _ _ (by decide)]
    dsimp only
    unfold cmdDispatch
    rw [scanU_digits h1 h2]
    rw [if_neg (fun hcon => absurd hcon.1 (by decide)),
      if_pos ⟨rfl, by simp⟩]
    rfl
  · rw [hstep]
    unfold cmdStep
    rw [splitArg_name_eq _ _ (by decide)]
    dsimp only
    unfold cmdDispatch
    rw [scanU_digits h1 h2]
    rw [if_neg (fun hcon => absurd hcon.1 (by decide)),
      if_neg (fun hcon => absurd hcon.1 (by decide)),
      if_pos ⟨rfl, by simp⟩]
    rfl
  · rw [hstep]
    unfold cmdStep
    rw [splitArg_name_eq _ _ (by decide)]
    dsimp only
    unfold cmdDispatch
    rw [scanF_digits h1 h2]
    rw [if_neg (fun hcon => absurd hcon.1 (by decide)),
      if_neg (fun hcon => absurd hcon.1 (by decide)),
      if_neg (fun hcon => absurd hcon.1 (by decide)),
      if_pos ⟨rfl, by simp⟩]
    rfl
  · rw [hstep]
    unfold cmdStep
    rw [splitArg_name_eq _ _ (by decide)]
    dsimp only
    unfold cmdDispatch
    rw [scanU_digits h1 h2]
    rw [if_neg (fun hcon => absurd hcon.1 (by decide)),
      if_neg (fun hcon => absurd hcon.1 (by decide)),
      if_neg (fun hcon => absurd hcon.1 (by decide)),
      if_neg (fun hcon => absurd hcon.1 (by decide)),
      if_pos ⟨rfl, by simp⟩]
    rfl
  · rw [hstep]
    unfold cmdStep
    rw [splitArg_name_eq _ _ (by decide)]
    dsimp only
    unfold cmdDispatch
    rw [scanU_digits h1 h2]
    rw [if_neg (fun hcon => absurd hcon.1 (by decide)),
      if_neg (fun hcon => absurd hcon.1 (by decide)),
      if_neg (fun hcon => absurd hcon.1 (by decide)),
      if_neg (fun hcon => absurd hcon.1 (by decide)),
      if_neg (fun hcon => absurd hcon.1 (by decide)),
      if_pos ⟨rfl, by simp⟩]
    rfl
  · rw [hstep]
    unfold cmdStep
    rw [splitArg_name_eq _ _ (by decide)]
    dsimp only
    unfold cmdDispatch
    rw [scanU_digits h1 h2]
    rw [if_neg (fun hcon => absurd hcon.1 (by decide)),
      if_neg (fun hcon => absurd hcon.1 (by decide)),
      if_neg (fun hcon => absurd hcon.1 (by decide)),
      if_neg (fun hcon => absurd hcon.1 (by decide)),
      if_neg (fun hcon => absurd hcon.1 (by decide)),
      if_neg (fun hcon => absurd hcon.1 (by decide)),
      if_pos ⟨rfl, by simp⟩]
    rfl
  · rw [hstep]
    unfold cmdStep
    rw [splitArg_name_noeq _ (by decide)]
    dsimp only
    unfold cmdDispatch
    rw [if_pos ⟨rfl, by decide⟩]
    rfl

/-- Witness for C10 at the token `--threads=4`. -/
theorem C10_valued_options_witness :
    ((['4'] : List Char) ≠ [] ∧ ∀ c ∈ (['4'] : List Char),
        c.isDigit = true)
    ∧ extract_cmd_args ["--threads=4".toList]
        { threadsN := 64, sizeR := 0, sizeS := 0, skew := 0, radixR := 0,
          radixS := 0, userDefined := false, favorPhysicalCores := true,
          ival := 5, dval := 0, unrecognized := [] }
      = some
        { threadsN := 4, sizeR := 0, sizeS := 0, skew := 0, radixR := 0,
          radixS := 0, userDefined := false, favorPhysicalCores := true,
          ival := 4, dval := 0, unrecognized := [] } := by
  constructor
  · exact ⟨by decide, by decide⟩
  · have := (C10_valued_options
      { threadsN := 64, sizeR := 0, sizeS := 0, skew := 0, radixR := 0,
        radixS := 0, userDefined := false, favorPhysicalCores := true,
        ival := 5, dval := 0, unrecognized := [] }
      ['4'] (by decide) (by decide)).1
    rw [show ("--threads=4".toList)
      = ('-' :: '-' :: ("threads".toList ++ '=' :: ['4'])) from by decide]
    rw [this]
    rfl

/-! ## Worker sub-ranges (`prepare_threads_meta`, `util/threads.c`) -/

/-- Worker `w`'s offset into a relation of `sz` tuples
(`threads.c` lines 87-106): `section = sz / N`, with the first
`sz % N` workers receiving one extra tuple. -/
def subOff (sz Nw w : Nat) : Nat := w * (sz / Nw) + min w (sz % Nw)

/-- Worker `w`'s sub-range size. -/
def subSize (sz Nw w : Nat) : Nat :=
  sz / Nw + (if w < sz % Nw then 1 else 0)

/-- Worker `w`'s sub-relation (`SubR` / `SubS`). -/
def subRel (L : List Tuple) (Nw w : Nat) : List Tuple :=
  segOf L (subOff L.length Nw w) (subSize L.length Nw w)

theorem subOff_eq_sumR (sz Nw w : Nat) :
    subOff sz Nw w = sumR (subSize sz Nw) w := by
  induction w with
  | zero => simp [subOff, sumR]
  | succ k ih =>
    rw [sumR_succ, ← ih]
    unfold subOff subSize
    by_cases h : k < sz % Nw
    · rw [if_pos h]
      have h1 : min k (sz % Nw) = k := by omega
      have h2 : min (k+1) (sz % Nw) = k + 1 := by omega
      rw [h1, h2]
      ring
    · rw [if_neg h]
      have h1 : min k (sz % Nw) = sz % Nw := by omega
      have h2 : min (k+1) (sz % Nw) = sz % Nw := by omega
      rw [h1, h2]
      ring

theorem subSize_total {sz Nw : Nat} (h : 1 ≤ Nw) :
    sumR (subSize sz Nw) Nw = sz := by
  rw [← subOff_eq_sumR]
  unfold subOff
  have h1 : sz % Nw < Nw := Nat.mod_lt _ (by omega)
  have h2 : min Nw (sz % Nw) = sz % Nw := by omega
  rw [h2]
  exact Nat.div_add_mod sz Nw

/-- The workers' sub-relations are consecutive slices covering the
relation. -/
theorem subRel_join (L : List Tuple) {Nw : Nat} (h : 1 ≤ Nw) :
    (List.range Nw).flatMap (fun w => subRel L Nw w) = L := by
  have := flatMap_segOf L (subSize L.length Nw) Nw (subSize_total h)
  rw [show (fun w => subRel L Nw w)
    = (fun w => segOf L (sumR (subSize L.length Nw) w)
        (subSize L.length Nw w)) from funext (fun w => by
      unfold subRel
      rw [subOff_eq_sumR])]
  exact this

theorem subRel_length (L : List Tuple) {Nw w : Nat} (hN : 1 ≤ Nw)
    (hw : w < Nw) : (subRel L Nw w).length = subSize L.length Nw w := by
  unfold subRel segOf
  simp only [List.length_take, List.length_drop]
  have hoff : subOff L.length Nw w + subSize L.length Nw w ≤ L.length := by
    rw [subOff_eq_sumR, ← sumR_succ]
    calc sumR (subSize L.length Nw) (w+1)
        ≤ sumR (subSize L.length Nw) Nw := sumR_mono _ (by omega)
      _ = L.length := subSize_total hN
  omega

theorem subRel_size_pos (L : List Tuple) {Nw w : Nat} (hN : 1 ≤ Nw)
    (hw : w < Nw) (hsz : Nw ≤ L.length) : 1 ≤ (subRel L Nw w).length := by
  rw [subRel_length L hN hw]
  unfold subSize
  have : 1 ≤ L.length / Nw := (Nat.one_le_div_iff (by omega)).mpr hsz
  omega

theorem mem_segOf {t : Tuple} {L : List Tuple} {a b : Nat}
    (h : t ∈ segOf L a b) : t ∈ L := by
  unfold segOf at h
  exact List.mem_of_mem_drop (List.mem_of_mem_take h)

/-! ## Cursor scans and shared-table writes -/

/-- The cursor scan
`for(; idx < end && p == HASH(...); idx++)` over a schedule of
partition ids: each step visits the `takeWhile` run of the current
partition and leaves the cursor after it (`BlocksX[b][h].start` is
persisted across iterations). -/
def sweepSegs (f : Tuple → Nat) : List Nat → List Tuple → List (List Tuple)
  | [], _ => []
  | p :: ps, cur =>
    cur.takeWhile (fun t => f t == p)
      :: sweepSegs f ps (cur.dropWhile (fun t => f t == p))

theorem takeWhile_append_all (q : Tuple → Bool) (l₁ l₂ : List Tuple)
    (h : ∀ x ∈ l₁, q x = true) :
    (l₁ ++ l₂).takeWhile q = l₁ ++ l₂.takeWhile q := by
  induction l₁ with
  | nil => rfl
  | cons a rest ih =>
    rw [List.cons_append, List.takeWhile_cons, if_pos (h a (by simp)),
      ih (fun x hx => h x (by simp [hx])), List.cons_append]

theorem dropWhile_append_all (q : Tuple → Bool) (l₁ l₂ : List Tuple)
    (h : ∀ x ∈ l₁, q x = true) :
    (l₁ ++ l₂).dropWhile q = l₂.dropWhile q := by
  induction l₁ with
  | nil => rfl
  | cons a rest ih =>
    rw [List.cons_append, List.dropWhile_cons, if_pos (h a (by simp))]
    exact ih (fun x hx => h x (by simp [hx]))

theorem takeWhile_nil_all_false (q : Tuple → Bool) (l : List Tuple)
    (h : ∀ x ∈ l, q x = false) : l.takeWhile q = [] := by
  cases l with
  | nil => rfl
  | cons a rest =>
    rw [List.takeWhile_cons, if_neg (by simp [h a (by simp)])]

theorem dropWhile_self_all_false (q : Tuple → Bool) (l : List Tuple)
    (h : ∀ x ∈ l, q x = false) : l.dropWhile q = l := by
  cases l with
  | nil => rfl
  | cons a rest =>
    rw [List.dropWhile_cons, if_neg (by simp [h a (by simp)])]

/-- Sweeping a sorted-runs list along its own schedule visits each
partition's run exactly, in schedule order. -/
theorem sweepSegs_eq (f : Tuple → Nat) (ps : List Nat)
    (gs : Nat → List Tuple) (hg : ∀ p ∈ ps, ∀ t ∈ gs p, f t = p)
    (hnd : ps.Nodup) :
    sweepSegs f ps (ps.flatMap gs) = ps.map gs := by
  induction ps with
  | nil => rfl
  | cons p rest ih =>
    rw [List.flatMap_cons]
    show ((gs p ++ rest.flatMap gs).takeWhile (fun t => f t == p))
        :: sweepSegs f rest
          ((gs p ++ rest.flatMap gs).dropWhile (fun t => f t == p))
      = gs p :: rest.map gs
    have hall : ∀ x ∈ gs p, (fun t => f t == p) x = true := by
      intro x hx
      simp [hg p (by simp) x hx]
    have hrest : ∀ x ∈ rest.flatMap gs, (fun t => f t == p) x = false := by
      intro x hx
      obtain ⟨q, hq, hxq⟩ := List.mem_flatMap.mp hx
      have : f x = q := hg q (by simp [hq]) x hxq
      have hne : q ≠ p := by
        intro hqp
        subst hqp
        exact (List.nodup_cons.mp hnd).1 hq
      simp [this, hne]
    rw [takeWhile_append_all _ _ _ hall, dropWhile_append_all _ _ _ hall,
      takeWhile_nil_all_false _ _ hrest, dropWhile_self_all_false _ _ hrest,
      List.append_nil]
    rw [ih (fun q hq t ht => hg q (by simp [hq]) t ht)
      (List.nodup_cons.mp hnd).2]

/-- Table writes of a barrier-separated build phase, folded in one
chosen interleaving.  The cell lemmas below depend only on per-cell
write properties, which hold for every interleaving. -/
def applyWrites (ws : List (Nat × Nat)) (tbl : Nat → Nat) : Nat → Nat :=
  ws.foldl (fun tb w => Function.update tb w.1 w.2) tbl

theorem applyWrites_notin (ws : List (Nat × Nat)) (tbl : Nat → Nat)
    (s : Nat) (h : ∀ w ∈ ws, w.1 ≠ s) : applyWrites ws tbl s = tbl s := by
  induction ws generalizing tbl with
  | nil => rfl
  | cons w rest ih =>
    show applyWrites rest (Function.update tbl w.1 w.2) s = tbl s
    rw [ih _ (fun x hx => h x (by simp [hx])),
      Function.update_noteq (fun hc => h w (by simp) (by omega)) ]

theorem applyWrites_const (ws : List (Nat × Nat)) (tbl : Nat → Nat)
    (s v : Nat) (hall : ∀ w ∈ ws, w.1 = s → w.2 = v)
    (hex : ∃ w ∈ ws, w.1 = s) : applyWrites ws tbl s = v := by
  induction ws generalizing tbl with
  | nil => obtain ⟨w, hw, _⟩ := hex; simp at hw
  | cons w rest ih =>
    show applyWrites rest (Function.update tbl w.1 w.2) s = v
    by_cases hrest : ∃ x ∈ rest, x.1 = s
    · exact ih _ (fun x hx hxs => hall x (by simp [hx]) hxs) hrest
    · have hw : w.1 = s := by
        obtain ⟨x, hx, hxs⟩ := hex
        rcases List.mem_cons.mp hx with h1 | h1
        · rw [← h1]; exact hxs
        · exact absurd ⟨x, h1, hxs⟩ hrest
      rw [applyWrites_notin _ _ _ (fun x hx => by
        intro hc
        exact hrest ⟨x, hx, hc⟩)]
      rw [hw, Function.update_same]
      exact hall w (by simp) hw

theorem applyWrites_nodup (ws : List (Nat × Nat)) (tbl : Nat → Nat)
    {s v : Nat} (hnd : (ws.map Prod.fst).Nodup) (hmem : (s, v) ∈ ws) :
    applyWrites ws tbl s = v := by
  induction ws generalizing tbl with
  | nil => simp at hmem
  | cons w rest ih =>
    rw [List.map_cons, List.nodup_cons] at hnd
    show applyWrites rest (Function.update tbl w.1 w.2) s = v
    rcases List.mem_cons.mp hmem with h1 | h1
    · have hw1 : w.1 = s := by rw [← h1]
      have hw2 : w.2 = v := by rw [← h1]
      rw [applyWrites_notin _ _ _ ?_, hw1, hw2, Function.update_same]
      intro x hx hc
      exact hnd.1 (by
        rw [hw1, ← hc]
        exact List.mem_map.mpr ⟨x, hx, rfl⟩)
    · exact ih _ hnd.2 h1

/-- Bucket value stored for a tuple: the payload, or the key under the
`TEST_KEY_INPLACEOF_PAYLOAD` test configuration (`common.h` line 34;
the shipped value is `false`). -/
def bval (tkp : Bool) (t : Tuple) : Nat :=
  if tkp then t.key else t.payload

/-- The probe loop shared by the models (`buildprobe_I.c` lines 68-85,
`buildprobe_II.c` lines 138-156, `buildprobe_III.c` lines 102-119):
`checksum += <bucket read>; matches` incremented unconditionally, or
only on `<bucket read> == k` in the test configuration.  `rd t` is the
bucket read for tuple `t`. -/
def probeLoop (tkp : Bool) (rd : Tuple → Nat) (l : List Tuple) :
    Nat × Nat :=
  l.foldl (fun mc t =>
    ((if tkp then (if rd t = t.key then mc.1 + 1 else mc.1)
      else mc.1 + 1),
     mc.2 + rd t)) (0, 0)

theorem probeLoop_spec (tkp : Bool) (rd : Tuple → Nat) (l : List Tuple) :
    probeLoop tkp rd l
      = ((if tkp then l.countP (fun t => rd t == t.key) else l.length),
         (l.map rd).sum) := by
  suffices h : ∀ mc : Nat × Nat,
      l.foldl (fun mc t =>
        ((if tkp then (if rd t = t.key then mc.1 + 1 else mc.1)
          else mc.1 + 1),
         mc.2 + rd t)) mc
      = (mc.1 + (if tkp then l.countP (fun t => rd t == t.key)
          else l.length), mc.2 + (l.map rd).sum) by
    have := h (0, 0)
    rw [probeLoop, this]
    simp
  induction l with
  | nil =>
    intro mc
    simp [List.countP_nil]
  | cons t rest ih =>
    intro mc
    rw [List.foldl_cons, ih, List.countP_cons, List.map_cons, List.sum_cons]
    by_cases htkp : tkp
    · subst htkp
      by_cases hrd : rd t = t.key
      · simp [hrd]
        omega
      · simp [hrd]
        omega
    · simp at htkp
      subst htkp
      simp
      omega

theorem probeLoop_congr (tkp : Bool) (rd1 rd2 : Tuple → Nat)
    (l : List Tuple) (h : ∀ t ∈ l, rd1 t = rd2 t) :
    probeLoop tkp rd1 l = probeLoop tkp rd2 l := by
  rw [probeLoop_spec, probeLoop_spec]
  congr 1
  · by_cases htkp : tkp
    · subst htkp
      simp only [if_true]
      exact List.countP_congr (fun t ht => by rw [h t ht])
    · simp at htkp
      subst htkp
      rfl
  · rw [List.map_congr_left h]

/-! ## Model I (`buildprobe_I.c`) and the key preconditions -/

/-- Primary key in R (`generate.c`, `fill_primary_keys`): the keys are
a permutation of `[1, |R|]`. -/
def isPrimaryKey (R : List Tuple) : Prop :=
  List.Perm (R.map Tuple.key) (List.range' 1 R.length)

/-- Foreign key in S (`generate.c`): every key lies in `[1, |R|]`. -/
def isForeignKey (S : List Tuple) (n : Nat) : Prop :=
  ∀ t ∈ S, 1 ≤ t.key ∧ t.key ≤ n

theorem isPrimaryKey_nodup {R : List Tuple} (h : isPrimaryKey R) :
    (R.map Tuple.key).Nodup :=
  h.nodup_iff.mpr (List.nodup_range' _ _)

theorem isPrimaryKey_mem {R : List Tuple} (h : isPrimaryKey R) {k : Nat}
    (hk1 : 1 ≤ k) (hk2 : k ≤ R.length) : ∃ t ∈ R, t.key = k := by
  have hmem : k ∈ R.map Tuple.key := by
    rw [h.mem_iff, List.mem_range'_1]
    omega
  obtain ⟨t, ht, hk⟩ := List.mem_map.mp hmem
  exact ⟨t, ht, hk⟩

/-- Cooperative zeroing of Model I (`buildprobe_I.c` lines 33-36):
`share = HTable_size / N`, worker `tid` zeroes
`[tid*share, (tid+1)*share)`; together they zero exactly the first
`N * ((|R|+1) / N)` buckets, leaving the rest as allocated. -/
def zeroShare_I (Nw n : Nat) (tbl : Nat → Nat) : Nat → Nat :=
  fun i => if i < Nw * ((n + 1) / Nw) then 0 else tbl i

/-- Build phase of Model I (`buildprobe_I.c` lines 44-56): every worker
writes `HTable[k] = payload` (or `k`); the phases are barrier-separated
and all write targets are distinct under the primary-key precondition,
so the concurrent writes are folded in worker order. -/
def buildTable_I (tkp : Bool) (R : List Tuple) (tbl : Nat → Nat) :
    Nat → Nat :=
  applyWrites (R.map (fun t => (t.key, bval tkp t))) tbl

/-- Per-worker `matches` counter in Model I. -/
def matches_I (tkp : Bool) (tbl : Nat → Nat) (Ssub : List Tuple) : Nat :=
  (probeLoop tkp (fun t => tbl t.key) Ssub).1

/-- Per-worker `checksum` counter in Model I: `checksum += k` for each
own R tuple during build, plus the probe reads. -/
def checksum_I (tkp : Bool) (tbl : Nat → Nat) (Rsub Ssub : List Tuple) :
    Nat :=
  (Rsub.map Tuple.key).sum + (probeLoop tkp (fun t => tbl t.key) Ssub).2

/-- `execute_join` totals under Model I (`run.c` lines 25-43): sum of
the per-worker counters. -/
def totals_I (tkp : Bool) (init : Nat → Nat) (Nw : Nat)
    (R S : List Tuple) : Nat × Nat :=
  (sumR (fun w => matches_I tkp
      (buildTable_I tkp R (zeroShare_I Nw R.length init))
      (subRel S Nw w)) Nw,
   sumR (fun w => checksum_I tkp
      (buildTable_I tkp R (zeroShare_I Nw R.length init))
      (subRel R Nw w) (subRel S Nw w)) Nw)

/-- Reading the Model I table at a key of `R` yields that tuple's
bucket value, independently of the table's prior contents. -/
theorem buildTable_I_read (tkp : Bool) (R : List Tuple)
    (hpk : isPrimaryKey R) {k : Nat} (hk1 : 1 ≤ k) (hk2 : k ≤ R.length) :
    ∃ t0 ∈ R, t0.key = k
      ∧ ∀ init : Nat → Nat, buildTable_I tkp R init k = bval tkp t0 := by
  obtain ⟨t0, ht0, hkey⟩ := isPrimaryKey_mem hpk hk1 hk2
  refine ⟨t0, ht0, hkey, fun init => ?_⟩
  unfold buildTable_I
  apply applyWrites_nodup
  · rw [List.map_map]
    have : (Prod.fst ∘ fun t : Tuple => (t.key, bval tkp t)) = Tuple.key :=
      funext (fun t => rfl)
    rw [this]
    exact isPrimaryKey_nodup hpk
  · rw [← hkey]
    exact List.mem_map.mpr ⟨t0, ht0, rfl⟩

/-- C9: the Model I cooperative zeroing covers exactly the first
`N·⌊(|R|+1)/N⌋` buckets — up to `N-1` trailing buckets keep their
allocation-time contents — yet under the primary-key and foreign-key
preconditions the reported totals do not depend on the table's initial
contents, because every probed bucket was written during build. -/
theorem C9_modelI_partial_zeroing_harmless (tkp : Bool) (Nw : Nat)
    (R S : List Tuple) (hpk : isPrimaryKey R)
    (hfk : isForeignKey S R.length) (hNw : 1 ≤ Nw) :
    ((R.length + 1) - Nw * ((R.length + 1) / Nw) = (R.length + 1) % Nw)
    ∧ ((R.length + 1) % Nw < Nw)
    ∧ (∀ init : Nat → Nat, ∀ i, Nw * ((R.length + 1) / Nw) ≤ i →
        zeroShare_I Nw R.length init i = init i)
    ∧ (∀ init : Nat → Nat, ∀ i, i < Nw * ((R.length + 1) / Nw) →
        zeroShare_I Nw R.length init i = 0)
    ∧ (∀ init1 init2 : Nat → Nat,
        totals_I tkp init1 Nw R S = totals_I tkp init2 Nw R S) := by
  refine ⟨?_, Nat.mod_lt _ (by omega), ?_, ?_, ?_⟩
  · have := Nat.div_add_mod (R.length + 1) Nw
    omega
  · intro init i hi
    unfold zeroShare_I
    rw [if_neg (by omega)]
  · intro init i hi
    unfold zeroShare_I
    rw [if_pos hi]
  · intro init1 init2
    have hread : ∀ t ∈ S,
        buildTable_I tkp R (zeroShare_I Nw R.length init1) t.key
          = buildTable_I tkp R (zeroShare_I Nw R.length init2) t.key := by
      intro t ht
      obtain ⟨t0, _, _, hval⟩ :=
        buildTable_I_read tkp R hpk (hfk t ht).1 (hfk t ht).2
      rw [hval, hval]
    unfold totals_I
    congr 1
    · apply sumR_congr
      intro w _
      unfold matches_I
      have := probeLoop_congr tkp _ _ (subRel S Nw w)
        (fun t ht => hread t (mem_segOf ht))
      rw [this]
    · apply sumR_congr
      intro w _
      unfold checksum_I
      have := probeLoop_congr tkp _ _ (subRel S Nw w)
        (fun t ht => hread t (mem_segOf ht))
      rw [this]

/-- Witness for C9: two workers, `|R| = 2`, two differing initial
tables. -/
theorem C9_modelI_partial_zeroing_harmless_witness :
    (isPrimaryKey [⟨2, 20⟩, ⟨1, 10⟩]
      ∧ isForeignKey [⟨1, 0⟩, ⟨2, 0⟩] 2 ∧ 1 ≤ 2)
    ∧ totals_I false (fun _ => 0) 2 [⟨2, 20⟩, ⟨1, 10⟩] [⟨1, 0⟩, ⟨2, 0⟩]
        = totals_I false (fun _ => 7) 2 [⟨2, 20⟩, ⟨1, 10⟩]
            [⟨1, 0⟩, ⟨2, 0⟩] :=
  ⟨⟨by unfold isPrimaryKey; decide, by unfold isForeignKey; decide,
    by decide⟩,
   (C9_modelI_partial_zeroing_harmless false 2 [⟨2, 20⟩, ⟨1, 10⟩]
       [⟨1, 0⟩, ⟨2, 0⟩] (by unfold isPrimaryKey; decide)
       (by unfold isForeignKey; decide) (by decide)).2.2.2.2
     (fun _ => 0) (fun _ => 7)⟩

/-- Sum of a per-element quantity over concatenated pieces. -/
theorem sumR_map_flatMap (n : Nat) (g : Nat → List Tuple)
    (F : Tuple → Nat) :
    sumR (fun i => ((g i).map F).sum) n
      = (((List.range n).flatMap g).map F).sum := by
  induction n with
  | zero => rfl
  | succ k ih =>
    rw [sumR_succ, ih, List.range_succ, List.flatMap_append,
      List.map_append, List.sum_append]
    simp

/-- Per-worker S sub-range lengths sum to `|S|`. -/
theorem sumR_subRel_length (L : List Tuple) {Nw : Nat} (hNw : 1 ≤ Nw) :
    sumR (fun w => (subRel L Nw w).length) Nw = L.length := by
  rw [sumR_congr Nw (fun w hw => subRel_length L hNw hw)]
  exact subSize_total hNw

/-- Per-worker sums of a tuple quantity over the sub-ranges equal the
whole-relation sum. -/
theorem sumR_subRel_map (L : List Tuple) {Nw : Nat} (hNw : 1 ≤ Nw)
    (F : Tuple → Nat) :
    sumR (fun w => ((subRel L Nw w).map F).sum) Nw = (L.map F).sum := by
  rw [sumR_map_flatMap Nw (fun w => subRel L Nw w) F, subRel_join L hNw]

/-- Model I total matches equal `|S|` (for either payload
configuration: with the test flag every probe also compares equal). -/
theorem totals_I_matches (tkp : Bool) (init : Nat → Nat) (Nw : Nat)
    (R S : List Tuple) (hpk : isPrimaryKey R)
    (hfk : isForeignKey S R.length) (hNw : 1 ≤ Nw) :
    (totals_I tkp init Nw R S).1 = S.length := by
  unfold totals_I matches_I
  show sumR _ Nw = S.length
  have hbody : ∀ w, w < Nw →
      (probeLoop tkp
        (fun t => buildTable_I tkp R (zeroShare_I Nw R.length init) t.key)
        (subRel S Nw w)).1
      = (subRel S Nw w).length := by
    intro w _
    rw [probeLoop_spec]
    by_cases htkp : tkp
    · subst htkp
      rw [if_pos rfl]
      apply List.countP_eq_length.mpr
      intro t ht
      have hfkt := hfk t (mem_segOf ht)
      obtain ⟨t0, _, hkey, hval⟩ :=
        buildTable_I_read true R hpk hfkt.1 hfkt.2
      simp [hval, bval, hkey]
    · simp at htkp
      subst htkp
      rw [if_neg (by simp)]
  rw [sumR_congr Nw hbody]
  exact sumR_subRel_length S hNw

/-- Model I total checksum in the test configuration equals
`Σ keys(R) + Σ keys(S)`. -/
theorem totals_I_checksum (init : Nat → Nat) (Nw : Nat)
    (R S : List Tuple) (hpk : isPrimaryKey R)
    (hfk : isForeignKey S R.length) (hNw : 1 ≤ Nw) :
    (totals_I true init Nw R S).2
      = (R.map Tuple.key).sum + (S.map Tuple.key).sum := by
  unfold totals_I checksum_I
  show sumR _ Nw = _
  have hbody : ∀ w, w < Nw →
      ((subRel R Nw w).map Tuple.key).sum
        + (probeLoop true
            (fun t => buildTable_I true R
              (zeroShare_I Nw R.length init) t.key)
            (subRel S Nw w)).2
      = ((subRel R Nw w).map Tuple.key).sum
        + ((subRel S Nw w).map Tuple.key).sum := by
    intro w _
    rw [probeLoop_spec]
    congr 1
    show (List.map (fun t => buildTable_I true R
      (zeroShare_I Nw R.length init) t.key) (subRel S Nw w)).sum = _
    apply congrArg
    apply List.map_congr_left
    intro t ht
    have hfkt := hfk t (mem_segOf ht)
    obtain ⟨t0, _, hkey, hval⟩ :=
      buildTable_I_read true R hpk hfkt.1 hfkt.2
    rw [hval]
    simp [bval, hkey]
  rw [sumR_congr Nw hbody]
  rw [show (fun w => ((subRel R Nw w).map Tuple.key).sum
      + ((subRel S Nw w).map Tuple.key).sum)
    = (fun w => (fun x => ((subRel R Nw x).map Tuple.key).sum) w
      + (fun x => ((subRel S Nw x).map Tuple.key).sum) w) from rfl]
  rw [sumR_add, sumR_subRel_map R hNw, sumR_subRel_map S hNw]

/-! ## Partition scans of Models II and III

Both models scan, for iteration `i` and sub-block `h`, the cursor run
of partition `p = h*iters + i` in every block (`buildprobe_II.c` lines
91-112, `buildprobe_III.c` lines 69-91).  Per `(block, sub-block)` the
cursor visits partitions in ascending order, so the scans form a
`sweepSegs` along the schedule `h*iters, …, h*iters + iters - 1`. -/

/-- Partition schedule of sub-block `h`: `p = h*iters + i` for
`i = 0, …, iters-1` (ascending across the outer iteration loop). -/
def psFor (h iters : Nat) : List Nat :=
  (List.range iters).map (fun i => h * iters + i)

/-- The run scanned from block `b`, sub-block `h`, at iteration `i`. -/
def scanSeg (radix shift G : Nat) (l : List Tuple) (b h i : Nat) :
    List Tuple :=
  (sweepSegs (icpHash radix shift) (psFor h ((1 <<< radix) / G))
    (subBlock radix shift G l b h)).getD i []

theorem subBlock_eq_psFor_flatMap (radix shift G : Nat) (l : List Tuple)
    (hl : 1 ≤ l.length) (hr : 1 ≤ radix) (hG : 0 < G)
    (hdvd : G ∣ 1 <<< radix) {b h : Nat} (hb : b < numBlocks l.length)
    (hh : h < G) :
    subBlock radix shift G l b h
      = (psFor h ((1 <<< radix) / G)).flatMap
          (grp (icpHash radix shift) (origBlk l b)) := by
  rw [subBlock_eq radix shift G l hl hr hG hdvd hb hh]
  unfold psFor
  rw [List.flatMap_map]

theorem grp_hash {f : Tuple → Nat} {l : List Tuple} {p : Nat} :
    ∀ t ∈ grp f l p, f t = p := by
  intro t ht
  have := (List.mem_filter.mp ht).2
  simpa using this

theorem psFor_nodup (h iters : Nat) : (psFor h iters).Nodup := by
  unfold psFor
  exact (List.nodup_range iters).map (fun a b hab => by omega)

/-- The iteration-`i` scan of `(b, h)` is exactly partition
`h*iters + i` of the original block. -/
theorem scanSeg_eq (radix shift G : Nat) (l : List Tuple)
    (hl : 1 ≤ l.length) (hr : 1 ≤ radix) (hG : 0 < G)
    (hdvd : G ∣ 1 <<< radix) {b h i : Nat} (hb : b < numBlocks l.length)
    (hh : h < G) (hi : i < (1 <<< radix) / G) :
    scanSeg radix shift G l b h i
      = grp (icpHash radix shift) (origBlk l b)
          (h * ((1 <<< radix) / G) + i) := by
  unfold scanSeg
  rw [subBlock_eq_psFor_flatMap radix shift G l hl hr hG hdvd hb hh]
  rw [sweepSegs_eq _ _ _ (fun p _ t ht => grp_hash t ht) (psFor_nodup _ _)]
  unfold psFor
  rw [List.map_map]
  exact getD_map_range _ _ _ _ hi

/-- Concatenating the iteration scans of `(b, h)` recovers the
sub-block. -/
theorem scanSeg_flatten (radix shift G : Nat) (l : List Tuple)
    (hl : 1 ≤ l.length) (hr : 1 ≤ radix) (hG : 0 < G)
    (hdvd : G ∣ 1 <<< radix) {b h : Nat} (hb : b < numBlocks l.length)
    (hh : h < G) :
    (List.range ((1 <<< radix) / G)).flatMap
        (fun i => scanSeg radix shift G l b h i)
      = subBlock radix shift G l b h := by
  rw [List.flatMap_congr (fun i hi =>
    scanSeg_eq radix shift G l hl hr hG hdvd hb hh (by simpa using hi))]
  rw [subBlock_eq radix shift G l hl hr hG hdvd hb hh]

/-- Join of all blocks recovers the sub-relation. -/
theorem origBlk_join (l : List Tuple) (hl : 1 ≤ l.length) :
    (List.range (numBlocks l.length)).flatMap (fun b => origBlk l b)
      = l := by
  have := flatMap_segOf l (lenB l.length) (numBlocks l.length)
    (fromB_total hl)
  rw [show (fun b => origBlk l b)
    = (fun b => segOf l (sumR (lenB l.length) b) (lenB l.length b)) from
    funext (fun b => rfl)]
  exact this

theorem count_flatMap_range (n : Nat) (g : Nat → List Tuple) (a : Tuple) :
    ((List.range n).flatMap g).count a = sumR (fun i => (g i).count a) n := by
  induction n with
  | zero => rfl
  | succ k ih =>
    rw [List.range_succ, List.flatMap_append, List.count_append, ih,
      sumR_succ]
    simp

/-- Splitting a range of `a*b` indices into `a` consecutive groups of
`b`. -/
theorem flatMap_range_mul (a b : Nat) (g : Nat → List Tuple) :
    (List.range (a * b)).flatMap g
      = (List.range a).flatMap
          (fun h => (List.range b).flatMap (fun i => g (h * b + i))) := by
  induction a with
  | zero => simp
  | succ k ih =>
    have hmul : (k + 1) * b = k * b + b := by ring
    rw [hmul, List.range_add, List.flatMap_append, ih, List.range_succ,
      List.flatMap_append]
    congr 1
    rw [List.flatMap_map]
    simp

/-- One worker's full scan over its sub-relation, in the code's
iteration-major order `(i, h, b)`. -/
def workerScan (radix shift G : Nat) (l : List Tuple) : List Tuple :=
  (List.range ((1 <<< radix) / G)).flatMap (fun i =>
    (List.range G).flatMap (fun h =>
      (List.range (numBlocks l.length)).flatMap (fun b =>
        scanSeg radix shift G l b h i)))

/-- The worker's scan visits each of its tuples exactly once. -/
theorem sumR_comm (g : Nat → Nat → Nat) (n m : Nat) :
    sumR (fun i => sumR (g i) m) n
      = sumR (fun j => sumR (fun i => g i j) n) m := by
  induction n with
  | zero =>
    rw [sumR_zero]
    rw [show (fun j => sumR (fun i => g i j) 0) = fun _ => (0:Nat) from
      funext (fun j => rfl), sumR_const_zero]
  | succ k ih =>
    rw [sumR_succ, ih]
    rw [show (fun j => sumR (fun i => g i j) (k+1))
      = (fun j => sumR (fun i => g i j) k + g k j) from
      funext (fun j => sumR_succ _ _)]
    rw [sumR_add]

/-- The worker's scan visits each of its tuples exactly once. -/
theorem workerScan_perm (radix shift G : Nat) (l : List Tuple)
    (hl : 1 ≤ l.length) (hr : 1 ≤ radix) (hG : 0 < G)
    (hdvd : G ∣ 1 <<< radix) :
    List.Perm (workerScan radix shift G l) l := by
  rw [List.perm_iff_count]
  intro a
  unfold workerScan
  have hsub : ∀ h, h < G → ∀ b, b < numBlocks l.length →
      sumR (fun i => (scanSeg radix shift G l b h i).count a)
        ((1 <<< radix) / G)
      = (subBlock radix shift G l b h).count a := by
    intro h hh b hb
    rw [← count_flatMap_range,
      scanSeg_flatten radix shift G l hl hr hG hdvd hb hh]
  calc ((List.range ((1 <<< radix) / G)).flatMap (fun i =>
      (List.range G).flatMap (fun h =>
        (List.range (numBlocks l.length)).flatMap (fun b =>
          scanSeg radix shift G l b h i)))).count a
      = sumR (fun i => sumR (fun h => sumR (fun b =>
          (scanSeg radix shift G l b h i).count a)
          (numBlocks l.length)) G) ((1 <<< radix) / G) := by
        rw [count_flatMap_range]
        exact sumR_congr _ (fun i _ => by
          rw [count_flatMap_range]
          exact sumR_congr G (fun h _ => count_flatMap_range _ _ a))
    _ = sumR (fun h => sumR (fun i => sumR (fun b =>
          (scanSeg radix shift G l b h i).count a)
          (numBlocks l.length)) ((1 <<< radix) / G)) G :=
        sumR_comm _ _ _
    _ = sumR (fun h => sumR (fun b => sumR (fun i =>
          (scanSeg radix shift G l b h i).count a)
          ((1 <<< radix) / G)) (numBlocks l.length)) G :=
        sumR_congr G (fun h _ => sumR_comm _ _ _)
    _ = sumR (fun b => sumR (fun h => sumR (fun i =>
          (scanSeg radix shift G l b h i).count a)
          ((1 <<< radix) / G)) G) (numBlocks l.length) :=
        sumR_comm _ _ _
    _ = sumR (fun b => (origBlk l b).count a) (numBlocks l.length) := by
        apply sumR_congr
        intro b hb
        rw [sumR_congr G (fun h hh => hsub h hh b hb)]
        have hfan : G * ((1 <<< radix) / G) = 1 <<< radix :=
          Nat.mul_div_cancel' hdvd
        have hgroups : sumR (fun h =>
            (subBlock radix shift G l b h).count a) G
            = (flatGroups (icpHash radix shift) (1 <<< radix)
                (origBlk l b)).count a := by
          unfold flatGroups
          rw [← hfan, flatMap_range_mul, count_flatMap_range]
          apply sumR_congr
          intro h hh
          rw [count_flatMap_range]
          rw [subBlock_eq radix shift G l hl hr hG hdvd hb hh,
            count_flatMap_range]
        rw [hgroups]
        exact (flatGroups_perm (icpHash radix shift) (1 <<< radix)
          (origBlk l b) (fun t _ => icpHash_lt radix shift t)).count_eq a
    _ = l.count a := by
        rw [← count_flatMap_range, origBlk_join l hl]

theorem length_eq_sum_map_one (l : List Tuple) :
    l.length = (l.map (fun _ => 1)).sum := by
  induction l with
  | nil => rfl
  | cons t rest ih =>
    rw [List.length_cons, List.map_cons, List.sum_cons, ih]
    omega

/-- Triple-sum plumbing: per-tuple quantities summed over all scans of
one worker equal the sum over its sub-relation. -/
theorem workerScan_map_sum (radix shift G : Nat) (l : List Tuple)
    (hl : 1 ≤ l.length) (hr : 1 ≤ radix) (hG : 0 < G)
    (hdvd : G ∣ 1 <<< radix) (F : Tuple → Nat) :
    sumR (fun i => sumR (fun h => sumR (fun b =>
        ((scanSeg radix shift G l b h i).map F).sum)
        (numBlocks l.length)) G) ((1 <<< radix) / G)
      = (l.map F).sum := by
  have hflat : ((workerScan radix shift G l).map F).sum
      = sumR (fun i => sumR (fun h => sumR (fun b =>
          ((scanSeg radix shift G l b h i).map F).sum)
          (numBlocks l.length)) G) ((1 <<< radix) / G) := by
    unfold workerScan
    rw [← sumR_map_flatMap]
    apply sumR_congr
    intro i _
    rw [← sumR_map_flatMap]
    apply sumR_congr
    intro h _
    rw [← sumR_map_flatMap]
  rw [← hflat]
  exact ((workerScan_perm radix shift G l hl hr hG hdvd).map F).sum_eq

/-! ## Model III (`buildprobe_III.c`) -/

/-- `ModelIII_shift = lg_ceil(|R|) - Radix.R - 1` (`partition.c` line
42; `uint32_t` subtraction is embedded as `Nat` truncated subtraction —
a legal configuration keeps `Radix.R + 1 ≤ lg_ceil |R|`). -/
def ModelIII_shift (sizeR radixR : Nat) : Nat :=
  lg_ceil sizeR - radixR - 1

/-- All build writes of Model III: every worker scans its R partitions
run by run and writes `GlobalTable[k] = payload` (or `k`); phases are
sbarrier-separated and, by the primary-key property, all writes target
pairwise distinct cells, so one interleaving (worker-major) is folded. -/
def buildWrites_III (tkp : Bool) (radix shift G Nw : Nat)
    (R : List Tuple) : List (Nat × Nat) :=
  ((List.range Nw).flatMap
    (fun w => workerScan radix shift G (subRel R Nw w))).map
    (fun t => (t.key, bval tkp t))

/-- The single `|R|+1`-sized global table after the build barrier
(`buildprobe_III.c` line 98).  The table is never zeroed; `init` is its
allocation-time content. -/
def table_III (tkp : Bool) (radix shift G Nw : Nat) (R : List Tuple)
    (init : Nat → Nat) : Nat → Nat :=
  applyWrites (buildWrites_III tkp radix shift G Nw R) init

/-- `execute_join` totals under Model III: each worker's `checksum`
accumulates its scanned R keys during build, then probes its whole
(unpartitioned) S sub-range against the global table. -/
def totals_III (tkp : Bool) (init : Nat → Nat) (Nw G radixR : Nat)
    (R S : List Tuple) : Nat × Nat :=
  (sumR (fun w => (probeLoop tkp
      (fun t => table_III tkp radixR
        (ModelIII_shift R.length radixR) G Nw R init t.key)
      (subRel S Nw w)).1) Nw,
   sumR (fun w =>
      ((workerScan radixR (ModelIII_shift R.length radixR) G
          (subRel R Nw w)).map Tuple.key).sum
      + (probeLoop tkp
          (fun t => table_III tkp radixR
            (ModelIII_shift R.length radixR) G Nw R init t.key)
          (subRel S Nw w)).2) Nw)

/-- Every R tuple is written during the Model III build. -/
theorem buildWrites_III_mem (tkp : Bool) (radix shift G Nw : Nat)
    (R : List Tuple) (hNw : 1 ≤ Nw) (hRN : Nw ≤ R.length)
    (hr : 1 ≤ radix) (hG : 0 < G) (hdvd : G ∣ 1 <<< radix)
    {t0 : Tuple} (ht0 : t0 ∈ R) :
    (t0.key, bval tkp t0) ∈ buildWrites_III tkp radix shift G Nw R := by
  unfold buildWrites_III
  apply List.mem_map.mpr
  refine ⟨t0, ?_, rfl⟩
  apply List.mem_flatMap.mpr
  rw [← subRel_join R hNw] at ht0
  obtain ⟨w, hw, hmem⟩ := List.mem_flatMap.mp ht0
  refine ⟨w, hw, ?_⟩
  have hsz : 1 ≤ (subRel R Nw w).length :=
    subRel_size_pos R hNw (by simpa using hw) hRN
  exact (workerScan_perm radix shift G (subRel R Nw w) hsz hr hG
    hdvd).mem_iff.mpr hmem

/-- In the test configuration the Model III table holds `k` at every
key `k` of `R`. -/
theorem table_III_read (radix shift G Nw : Nat) (R : List Tuple)
    (init : Nat → Nat) (hpk : isPrimaryKey R) (hNw : 1 ≤ Nw)
    (hRN : Nw ≤ R.length) (hr : 1 ≤ radix) (hG : 0 < G)
    (hdvd : G ∣ 1 <<< radix) {k : Nat} (hk1 : 1 ≤ k)
    (hk2 : k ≤ R.length) :
    table_III true radix shift G Nw R init k = k := by
  obtain ⟨t0, ht0, hkey⟩ := isPrimaryKey_mem hpk hk1 hk2
  unfold table_III
  apply applyWrites_const
  · intro w hw hwk
    unfold buildWrites_III at hw
    obtain ⟨t, _, hweq⟩ := List.mem_map.mp hw
    rw [← hweq] at hwk ⊢
    show bval true t = k
    rw [bval]
    simpa using hwk
  · refine ⟨(t0.key, bval true t0), ?_, hkey⟩
    exact buildWrites_III_mem true radix shift G Nw R hNw hRN hr hG
      hdvd ht0

/-- Model III total matches equal `|S|`. -/
theorem totals_III_matches (tkp : Bool) (init : Nat → Nat)
    (Nw G radixR : Nat) (R S : List Tuple) (hpk : isPrimaryKey R)
    (hfk : isForeignKey S R.length) (hNw : 1 ≤ Nw) (hRN : Nw ≤ R.length)
    (hr : 1 ≤ radixR) (hG : 0 < G) (hdvd : G ∣ 1 <<< radixR) :
    (totals_III tkp init Nw G radixR R S).1 = S.length := by
  unfold totals_III
  show sumR _ Nw = S.length
  have hbody : ∀ w, w < Nw →
      (probeLoop tkp (fun t => table_III tkp radixR
        (ModelIII_shift R.length radixR) G Nw R init t.key)
        (subRel S Nw w)).1
      = (subRel S Nw w).length := by
    intro w _
    rw [probeLoop_spec]
    by_cases htkp : tkp
    · subst htkp
      rw [if_pos rfl]
      apply List.countP_eq_length.mpr
      intro t ht
      have hfkt := hfk t (mem_segOf ht)
      have := table_III_read radixR (ModelIII_shift R.length radixR) G
        Nw R init hpk hNw hRN hr hG hdvd hfkt.1 hfkt.2
      simp [this]
    · simp at htkp
      subst htkp
      rw [if_neg (by simp)]
  rw [sumR_congr Nw hbody]
  exact sumR_subRel_length S hNw

/-- Model III total checksum in the test configuration equals
`Σ keys(R) + Σ keys(S)`. -/
theorem totals_III_checksum (init : Nat → Nat) (Nw G radixR : Nat)
    (R S : List Tuple) (hpk : isPrimaryKey R)
    (hfk : isForeignKey S R.length) (hNw : 1 ≤ Nw) (hRN : Nw ≤ R.length)
    (hr : 1 ≤ radixR) (hG : 0 < G) (hdvd : G ∣ 1 <<< radixR) :
    (totals_III true init Nw G radixR R S).2
      = (R.map Tuple.key).sum + (S.map Tuple.key).sum := by
  unfold totals_III
  show sumR _ Nw = _
  have hbody : ∀ w, w < Nw →
      ((workerScan radixR (ModelIII_shift R.length radixR) G
          (subRel R Nw w)).map Tuple.key).sum
      + (probeLoop true (fun t => table_III true radixR
          (ModelIII_shift R.length radixR) G Nw R init t.key)
          (subRel S Nw w)).2
      = ((subRel R Nw w).map Tuple.key).sum
        + ((subRel S Nw w).map Tuple.key).sum := by
    intro w hw
    congr 1
    · have hsz : 1 ≤ (subRel R Nw w).length :=
        subRel_size_pos R hNw hw hRN
      exact ((workerScan_perm radixR _ G (subRel R Nw w) hsz hr hG
        hdvd).map Tuple.key).sum_eq
    · rw [probeLoop_spec]
      show (List.map (fun t => table_III true radixR
        (ModelIII_shift R.length radixR) G Nw R init t.key)
        (subRel S Nw w)).sum = _
      apply congrArg
      apply List.map_congr_left
      intro t ht
      have hfkt := hfk t (mem_segOf ht)
      exact table_III_read radixR _ G Nw R init hpk hNw hRN hr hG hdvd
        hfkt.1 hfkt.2
  rw [sumR_congr Nw hbody]
  rw [show (fun w => ((subRel R Nw w).map Tuple.key).sum
      + ((subRel S Nw w).map Tuple.key).sum)
    = (fun w => (fun x => ((subRel R Nw x).map Tuple.key).sum) w
      + (fun x => ((subRel S Nw x).map Tuple.key).sum) w) from rfl]
  rw [sumR_add, sumR_subRel_map R hNw, sumR_subRel_map S hNw]

/-! ## Model II (`buildprobe_II.c`) -/

theorem icpHash_zero_shift (radix : Nat) (t : Tuple) :
    icpHash radix 0 t = t.key % (1 <<< radix) := by
  unfold icpHash HASHx
  rw [Nat.shiftRight_zero, Nat.one_shiftLeft,
    Nat.and_pow_two_sub_one_eq_mod]

/-- Within one partition, the bucket index `key >> radix` determines
the key. -/
theorem key_decomp (r k k2 : Nat) (h1 : k % 2 ^ r = k2 % 2 ^ r)
    (h2 : k >>> r = k2 >>> r) : k = k2 := by
  have e1 := Nat.div_add_mod k (2 ^ r)
  have e2 := Nat.div_add_mod k2 (2 ^ r)
  rw [Nat.shiftRight_eq_div_pow, Nat.shiftRight_eq_div_pow] at h2
  rw [h2] at e1
  omega

/-- Build writes of all workers for iteration `i` into table `h`
(`buildprobe_II.c` lines 85-118): every worker scans its partition-`p`
runs, `p = h*iters + i`, writing `HTable_h[k >> radix] = payload` (or
`k`).  Across the sbarrier-separated phase all writes to one slot carry
the same value, so one interleaving (worker-major) is folded. -/
def writesSeg_II (tkp : Bool) (radix G Nw : Nat) (R : List Tuple)
    (i h : Nat) : List (Nat × Nat) :=
  ((List.range Nw).flatMap (fun w =>
    (List.range (numBlocks (subRel R Nw w).length)).flatMap (fun b =>
      scanSeg radix 0 G (subRel R Nw w) b h i))).map
    (fun t => (t.key >>> radix, bval tkp t))

/-- Cooperative zeroing of the Model II tables (`buildprobe_II.c` lines
53-63): the first `min(N, 2·G)` workers each zero a
`HTable_size / (2·G)` share of every table. -/
def zeroShare_II (Nw G sizeR radixR : Nat) (init : Nat → Nat → Nat) :
    Nat → Nat → Nat :=
  fun h i =>
    if i < min Nw (2 * G) * (HTable_size_II sizeR radixR / (2 * G))
    then 0 else init h i

/-- The `G` tables before iteration `i` (so `tables_II … (i+1) h` is
table `h` as the iteration-`i` probe reads it, after that iteration's
build and its sbarrier). -/
def tables_II (tkp : Bool) (radix G Nw : Nat) (R : List Tuple)
    (init : Nat → Nat → Nat) : Nat → Nat → Nat → Nat
  | 0 => init
  | i+1 => fun h => applyWrites (writesSeg_II tkp radix G Nw R i h)
      (tables_II tkp radix G Nw R init i h)

/-- `execute_join` totals under Model II: per worker, the build
checksum accumulates its scanned R keys; the probe walks, for each
iteration `i` and sub-block `h`, its partition-`p` S runs against table
`h` as left by that iteration's build. -/
def totals_II (tkp : Bool) (init : Nat → Nat → Nat) (Nw G radixR : Nat)
    (R S : List Tuple) : Nat × Nat :=
  (sumR (fun w => sumR (fun i => sumR (fun h => sumR (fun b =>
      (probeLoop tkp
        (fun t => tables_II tkp radixR G Nw R
          (zeroShare_II Nw G R.length radixR init) (i+1) h
          (t.key >>> radixR))
        (scanSeg radixR 0 G (subRel S Nw w) b h i)).1)
      (numBlocks (subRel S Nw w).length)) G) ((1 <<< radixR) / G)) Nw,
   sumR (fun w =>
      ((workerScan radixR 0 G (subRel R Nw w)).map Tuple.key).sum
      + sumR (fun i => sumR (fun h => sumR (fun b =>
          (probeLoop tkp
            (fun t => tables_II tkp radixR G Nw R
              (zeroShare_II Nw G R.length radixR init) (i+1) h
              (t.key >>> radixR))
            (scanSeg radixR 0 G (subRel S Nw w) b h i)).2)
          (numBlocks (subRel S Nw w).length)) G)
        ((1 <<< radixR) / G)) Nw)

/-- Membership chain for a scanned run of a sub-relation. -/
theorem scanSeg_mem {radix G : Nat} {l : List Tuple} {b h i : Nat}
    (hl : 1 ≤ l.length) (hr : 1 ≤ radix) (hG : 0 < G)
    (hdvd : G ∣ 1 <<< radix) (hb : b < numBlocks l.length) (hh : h < G)
    (hi : i < (1 <<< radix) / G) {t : Tuple}
    (ht : t ∈ scanSeg radix 0 G l b h i) :
    t ∈ l ∧ icpHash radix 0 t = h * ((1 <<< radix) / G) + i := by
  rw [scanSeg_eq radix 0 G l hl hr hG hdvd hb hh hi] at ht
  refine ⟨mem_segOf ((List.mem_filter.mp ht).1), grp_hash t ht⟩

/-- After the iteration-`i` build, table `h` holds `k` at slot
`k >> radix` for every `R` key `k` of partition `h*iters + i` (test
configuration). -/
theorem tables_II_read (radix G Nw : Nat) (R : List Tuple)
    (init : Nat → Nat → Nat) (hpk : isPrimaryKey R) (hNw : 1 ≤ Nw)
    (hRN : Nw ≤ R.length) (hr : 1 ≤ radix) (hG : 0 < G)
    (hdvd : G ∣ 1 <<< radix) {i h : Nat} (hh : h < G)
    (hi : i < (1 <<< radix) / G) {k : Nat} (hk1 : 1 ≤ k)
    (hk2 : k ≤ R.length)
    (hhash : k % (1 <<< radix) = h * ((1 <<< radix) / G) + i) :
    tables_II true radix G Nw R init (i+1) h (k >>> radix) = k := by
  show applyWrites (writesSeg_II true radix G Nw R i h)
    (tables_II true radix G Nw R init i h) (k >>> radix) = k
  apply applyWrites_const
  · -- every write to this slot carries the value k
    intro wv hwv hslot
    unfold writesSeg_II at hwv
    obtain ⟨t, htmem, hweq⟩ := List.mem_map.mp hwv
    obtain ⟨w, hw, hmem2⟩ := List.mem_flatMap.mp htmem
    obtain ⟨b, hb, hmem3⟩ := List.mem_flatMap.mp hmem2
    have hsz : 1 ≤ (subRel R Nw w).length :=
      subRel_size_pos R hNw (by simpa using hw) hRN
    obtain ⟨_, hhash2⟩ := scanSeg_mem hsz hr hG hdvd
      (by simpa using hb) hh hi hmem3
    rw [icpHash_zero_shift] at hhash2
    rw [← hweq] at hslot ⊢
    show bval true t = k
    rw [bval, if_pos rfl]
    apply key_decomp radix t.key k
    · rw [← Nat.one_shiftLeft]
      rw [hhash2, hhash]
    · exact hslot
  · -- the R tuple with key k is written in this iteration
    obtain ⟨t0, ht0, hkey⟩ := isPrimaryKey_mem hpk hk1 hk2
    refine ⟨(t0.key >>> radix, bval true t0), ?_, by rw [hkey]⟩
    unfold writesSeg_II
    apply List.mem_map.mpr
    refine ⟨t0, ?_, rfl⟩
    apply List.mem_flatMap.mpr
    rw [← subRel_join R hNw] at ht0
    obtain ⟨w, hw, hmem⟩ := List.mem_flatMap.mp ht0
    refine ⟨w, hw, ?_⟩
    apply List.mem_flatMap.mpr
    have hsz : 1 ≤ (subRel R Nw w).length :=
      subRel_size_pos R hNw (by simpa using hw) hRN
    rw [← origBlk_join (subRel R Nw w) hsz] at hmem
    obtain ⟨b, hb, hmem2⟩ := List.mem_flatMap.mp hmem
    refine ⟨b, hb, ?_⟩
    rw [scanSeg_eq radix 0 G (subRel R Nw w) hsz hr hG hdvd
      (by simpa using hb) hh hi]
    apply List.mem_filter.mpr
    refine ⟨hmem2, ?_⟩
    have : icpHash radix 0 t0 = h * ((1 <<< radix) / G) + i := by
      rw [icpHash_zero_shift, hkey, hhash]
    simp [this]

/-- Model II total matches equal `|S|` (for either payload
configuration). -/
theorem totals_II_matches (tkp : Bool) (init : Nat → Nat → Nat)
    (Nw G radixR : Nat) (R S : List Tuple) (hpk : isPrimaryKey R)
    (hfk : isForeignKey S R.length) (hNw : 1 ≤ Nw) (hRN : Nw ≤ R.length)
    (hSN : Nw ≤ S.length) (hr : 1 ≤ radixR) (hG : 0 < G)
    (hdvd : G ∣ 1 <<< radixR) :
    (totals_II tkp init Nw G radixR R S).1 = S.length := by
  unfold totals_II
  show sumR _ Nw = S.length
  have hbody : ∀ w, w < Nw →
      sumR (fun i => sumR (fun h => sumR (fun b =>
        (probeLoop tkp (fun t => tables_II tkp radixR G Nw R
            (zeroShare_II Nw G R.length radixR init) (i+1) h
            (t.key >>> radixR))
          (scanSeg radixR 0 G (subRel S Nw w) b h i)).1)
        (numBlocks (subRel S Nw w).length)) G) ((1 <<< radixR) / G)
      = (subRel S Nw w).length := by
    intro w hw
    have hsz : 1 ≤ (subRel S Nw w).length :=
      subRel_size_pos S hNw hw hSN
    have hseg : ∀ i, i < (1 <<< radixR) / G → ∀ h, h < G →
        ∀ b, b < numBlocks (subRel S Nw w).length →
        (probeLoop tkp (fun t => tables_II tkp radixR G Nw R
            (zeroShare_II Nw G R.length radixR init) (i+1) h
            (t.key >>> radixR))
          (scanSeg radixR 0 G (subRel S Nw w) b h i)).1
        = ((scanSeg radixR 0 G (subRel S Nw w) b h i).map
            (fun _ => 1)).sum := by
      intro i hi h hh b hb
      rw [probeLoop_spec, ← length_eq_sum_map_one]
      by_cases htkp : tkp
      · subst htkp
        rw [if_pos rfl]
        apply List.countP_eq_length.mpr
        intro t ht
        obtain ⟨hmem, hhash⟩ := scanSeg_mem hsz hr hG hdvd hb hh hi ht
        obtain ⟨hk1, hk2⟩ := hfk t (mem_segOf hmem)
        rw [icpHash_zero_shift] at hhash
        have := tables_II_read radixR G Nw R
          (zeroShare_II Nw G R.length radixR init) hpk hNw hRN hr hG
          hdvd hh hi hk1 hk2 hhash
        simp [this]
      · simp at htkp
        subst htkp
        rw [if_neg (by simp)]
    rw [sumR_congr _ (fun i hi => sumR_congr _ (fun h hh =>
      sumR_congr _ (fun b hb => hseg i hi h hh b hb)))]
    rw [workerScan_map_sum radixR 0 G _ hsz hr hG hdvd (fun _ => 1)]
    exact (length_eq_sum_map_one _).symm
  rw [sumR_congr Nw hbody]
  exact sumR_subRel_length S hNw

/-- Model II total checksum in the test configuration equals
`Σ keys(R) + Σ keys(S)`. -/
theorem totals_II_checksum (init : Nat → Nat → Nat)
    (Nw G radixR : Nat) (R S : List Tuple) (hpk : isPrimaryKey R)
    (hfk : isForeignKey S R.length) (hNw : 1 ≤ Nw) (hRN : Nw ≤ R.length)
    (hSN : Nw ≤ S.length) (hr : 1 ≤ radixR) (hG : 0 < G)
    (hdvd : G ∣ 1 <<< radixR) :
    (totals_II true init Nw G radixR R S).2
      = (R.map Tuple.key).sum + (S.map Tuple.key).sum := by
  unfold totals_II
  show sumR _ Nw = _
  have hbody : ∀ w, w < Nw →
      ((workerScan radixR 0 G (subRel R Nw w)).map Tuple.key).sum
      + sumR (fun i => sumR (fun h => sumR (fun b =>
          (probeLoop true (fun t => tables_II true radixR G Nw R
              (zeroShare_II Nw G R.length radixR init) (i+1) h
              (t.key >>> radixR))
            (scanSeg radixR 0 G (subRel S Nw w) b h i)).2)
          (numBlocks (subRel S Nw w).length)) G) ((1 <<< radixR) / G)
      = ((subRel R Nw w).map Tuple.key).sum
        + ((subRel S Nw w).map Tuple.key).sum := by
    intro w hw
    have hszS : 1 ≤ (subRel S Nw w).length :=
      subRel_size_pos S hNw hw hSN
    congr 1
    · have hszR : 1 ≤ (subRel R Nw w).length :=
        subRel_size_pos R hNw hw hRN
      exact ((workerScan_perm radixR 0 G (subRel R Nw w) hszR hr hG
        hdvd).map Tuple.key).sum_eq
    · have hseg : ∀ i, i < (1 <<< radixR) / G → ∀ h, h < G →
          ∀ b, b < numBlocks (subRel S Nw w).length →
          (probeLoop true (fun t => tables_II true radixR G Nw R
              (zeroShare_II Nw G R.length radixR init) (i+1) h
              (t.key >>> radixR))
            (scanSeg radixR 0 G (subRel S Nw w) b h i)).2
          = ((scanSeg radixR 0 G (subRel S Nw w) b h i).map
              Tuple.key).sum := by
        intro i hi h hh b hb
        rw [probeLoop_spec]
        show (List.map _ _).sum = _
        apply congrArg
        apply List.map_congr_left
        intro t ht
        obtain ⟨hmem, hhash⟩ := scanSeg_mem hszS hr hG hdvd hb hh hi ht
        obtain ⟨hk1, hk2⟩ := hfk t (mem_segOf hmem)
        rw [icpHash_zero_shift] at hhash
        exact tables_II_read radixR G Nw R
          (zeroShare_II Nw G R.length radixR init) hpk hNw hRN hr hG
          hdvd hh hi hk1 hk2 hhash
      rw [sumR_congr _ (fun i hi => sumR_congr _ (fun h hh =>
        sumR_congr _ (fun b hb => hseg i hi h hh b hb)))]
      exact workerScan_map_sum radixR 0 G _ hszS hr hG hdvd Tuple.key
  rw [sumR_congr Nw hbody]
  rw [show (fun w => ((subRel R Nw w).map Tuple.key).sum
      + ((subRel S Nw w).map Tuple.key).sum)
    = (fun w => (fun x => ((subRel R Nw x).map Tuple.key).sum) w
      + (fun x => ((subRel S Nw x).map Tuple.key).sum) w) from rfl]
  rw [sumR_add, sumR_subRel_map R hNw, sumR_subRel_map S hNw]

/-! ## `execute_join` (`run.c`) end to end -/

/-- `execute_join`/`join_thread`: after ICP, dispatch on the radix pair
(`run.c` lines 76-83) and report the summed per-worker
`(total_matches, checksum)` (lines 36-42).  `none` models the
`assert(false)` abort (and the never-dispatched Model IV). -/
def executeJoin (tkp : Bool) (Nw G radixR radixS : Nat)
    (initI : Nat → Nat) (initII : Nat → Nat → Nat)
    (initIII : Nat → Nat) (R S : List Tuple) : Option (Nat × Nat) :=
  match joinDispatch radixR radixS with
  | .modelI => some (totals_I tkp initI Nw R S)
  | .modelII => some (totals_II tkp initII Nw G radixR R S)
  | .modelIII => some (totals_III tkp initIII Nw G radixR R S)
  | .modelIV => none
  | .assertFail => none

theorem dispatch_II_radix {radixR radixS : Nat}
    (hd : joinDispatch radixR radixS = JoinSel.modelII) :
    1 ≤ radixR := by
  unfold joinDispatch at hd
  split_ifs at hd with h1 h2
  omega

theorem dispatch_III_radix {radixR radixS : Nat}
    (hd : joinDispatch radixR radixS = JoinSel.modelIII) :
    1 ≤ radixR := by
  unfold joinDispatch at hd
  split_ifs at hd with h1 h2
  omega

theorem dispatch_not_IV {radixR radixS : Nat} :
    joinDispatch radixR radixS ≠ JoinSel.modelIV := by
  intro hd
  unfold joinDispatch at hd
  split_ifs at hd

/-- Total matches of any accepted run equal `|S|`. -/
theorem executeJoin_matches (tkp : Bool) (Nw G radixR radixS : Nat)
    (initI : Nat → Nat) (initII : Nat → Nat → Nat) (initIII : Nat → Nat)
    (R S : List Tuple) (hpk : isPrimaryKey R)
    (hfk : isForeignKey S R.length) (hNw : 1 ≤ Nw) (hG : 0 < G)
    (hRN : Nw ≤ R.length) (hSN : Nw ≤ S.length)
    (hdvd : G ∣ 1 <<< radixR)
    (hacc : joinDispatch radixR radixS ≠ JoinSel.assertFail) :
    (executeJoin tkp Nw G radixR radixS initI initII initIII R S).map
      Prod.fst = some S.length := by
  unfold executeJoin
  cases hd : joinDispatch radixR radixS with
  | modelI =>
    show some (totals_I tkp initI Nw R S).1 = some S.length
    rw [totals_I_matches tkp initI Nw R S hpk hfk hNw]
  | modelII =>
    show some (totals_II tkp initII Nw G radixR R S).1 = some S.length
    rw [totals_II_matches tkp initII Nw G radixR R S hpk hfk hNw hRN
      hSN (dispatch_II_radix hd) hG hdvd]
  | modelIII =>
    show some (totals_III tkp initIII Nw G radixR R S).1 = some S.length
    rw [totals_III_matches tkp initIII Nw G radixR R S hpk hfk hNw hRN
      (dispatch_III_radix hd) hG hdvd]
  | modelIV => exact absurd hd dispatch_not_IV
  | assertFail => exact absurd hd hacc

/-- In the test configuration any accepted run reports exactly
`(|S|, Σ keys(R) + Σ keys(S))`. -/
theorem executeJoin_test_closed (Nw G radixR radixS : Nat)
    (initI : Nat → Nat) (initII : Nat → Nat → Nat) (initIII : Nat → Nat)
    (R S : List Tuple) (hpk : isPrimaryKey R)
    (hfk : isForeignKey S R.length) (hNw : 1 ≤ Nw) (hG : 0 < G)
    (hRN : Nw ≤ R.length) (hSN : Nw ≤ S.length)
    (hdvd : G ∣ 1 <<< radixR)
    (hacc : joinDispatch radixR radixS ≠ JoinSel.assertFail) :
    executeJoin true Nw G radixR radixS initI initII initIII R S
      = some (S.length, (R.map Tuple.key).sum + (S.map Tuple.key).sum) := by
  unfold executeJoin
  cases hd : joinDispatch radixR radixS with
  | modelI =>
    refine congrArg some ?_
    rw [← totals_I_matches true initI Nw R S hpk hfk hNw,
        ← totals_I_checksum initI Nw R S hpk hfk hNw]
  | modelII =>
    refine congrArg some ?_
    rw [← totals_II_matches true initII Nw G radixR R S hpk hfk hNw
        hRN hSN (dispatch_II_radix hd) hG hdvd,
      ← totals_II_checksum initII Nw G radixR R S hpk hfk hNw hRN hSN
        (dispatch_II_radix hd) hG hdvd]
  | modelIII =>
    refine congrArg some ?_
    rw [← totals_III_matches true initIII Nw G radixR R S hpk hfk hNw
        hRN (dispatch_III_radix hd) hG hdvd,
      ← totals_III_checksum initIII Nw G radixR R S hpk hfk hNw hRN
        (dispatch_III_radix hd) hG hdvd]
  | modelIV => exact absurd hd dispatch_not_IV
  | assertFail => exact absurd hd hacc

/-- C1: for every legal configuration — `R`'s keys a permutation of
`[1, |R|]`, every `S` key in `[1, |R|]`, at least one worker and a
tuple per worker, fanout divisible by the number of groups, and a radix
pair accepted by the model dispatch — `execute_join`'s summed
per-worker matches counters equal `|S|`, under either payload
configuration. -/
theorem C1_total_matches (tkp : Bool) (Nw G radixR radixS : Nat)
    (initI : Nat → Nat) (initII : Nat → Nat → Nat) (initIII : Nat → Nat)
    (R S : List Tuple) (hpk : isPrimaryKey R)
    (hfk : isForeignKey S R.length) (hNw : 1 ≤ Nw) (hG : 0 < G)
    (hRN : Nw ≤ R.length) (hSN : Nw ≤ S.length)
    (hdvd : G ∣ 1 <<< radixR)
    (hacc : joinDispatch radixR radixS ≠ JoinSel.assertFail) :
    (executeJoin tkp Nw G radixR radixS initI initII initIII R S).map
      Prod.fst = some S.length :=
  executeJoin_matches tkp Nw G radixR radixS initI initII initIII R S
    hpk hfk hNw hG hRN hSN hdvd hacc

theorem C1_total_matches_witness :
    (executeJoin true 2 1 1 1 (fun _ => 0) (fun _ _ => 0) (fun _ => 0)
      [⟨2, 0⟩, ⟨1, 0⟩] [⟨1, 5⟩, ⟨2, 6⟩, ⟨1, 7⟩, ⟨2, 8⟩]).map Prod.fst
      = some 4 :=
  C1_total_matches true 2 1 1 1 (fun _ => 0) (fun _ _ => 0) (fun _ => 0)
    [⟨2, 0⟩, ⟨1, 0⟩] [⟨1, 5⟩, ⟨2, 6⟩, ⟨1, 7⟩, ⟨2, 8⟩]
    (by unfold isPrimaryKey; decide) (by unfold isForeignKey; decide)
    (by decide) (by decide) (by decide) (by decide) (by decide)
    (by decide)

/-- C4: in the test configuration (keys stored in place of payloads)
every accepted run reports checksum `Σ keys(R) + Σ keys(S)`;
consequently two accepted runs on the same `(R, S)` that differ in
thread count, group count, radix setting (and hence routed model) and
leftover table contents report identical total matches and identical
checksum. -/
theorem C4_checksum_model_equivalence
    (Nw G radixR radixS Nw2 G2 radixR2 radixS2 : Nat)
    (initI : Nat → Nat) (initII : Nat → Nat → Nat) (initIII : Nat → Nat)
    (initI2 : Nat → Nat) (initII2 : Nat → Nat → Nat)
    (initIII2 : Nat → Nat) (R S : List Tuple) (hpk : isPrimaryKey R)
    (hfk : isForeignKey S R.length)
    (hNw : 1 ≤ Nw) (hG : 0 < G) (hRN : Nw ≤ R.length)
    (hSN : Nw ≤ S.length) (hdvd : G ∣ 1 <<< radixR)
    (hacc : joinDispatch radixR radixS ≠ JoinSel.assertFail)
    (hNw2 : 1 ≤ Nw2) (hG2 : 0 < G2) (hRN2 : Nw2 ≤ R.length)
    (hSN2 : Nw2 ≤ S.length) (hdvd2 : G2 ∣ 1 <<< radixR2)
    (hacc2 : joinDispatch radixR2 radixS2 ≠ JoinSel.assertFail) :
    executeJoin true Nw G radixR radixS initI initII initIII R S
      = some (S.length, (R.map Tuple.key).sum + (S.map Tuple.key).sum)
    ∧ executeJoin true Nw G radixR radixS initI initII initIII R S
      = executeJoin true Nw2 G2 radixR2 radixS2 initI2 initII2 initIII2
          R S :=
  have h1 := executeJoin_test_closed Nw G radixR radixS initI initII
    initIII R S hpk hfk hNw hG hRN hSN hdvd hacc
  have h2 := executeJoin_test_closed Nw2 G2 radixR2 radixS2 initI2
    initII2 initIII2 R S hpk hfk hNw2 hG2 hRN2 hSN2 hdvd2 hacc2
  ⟨h1, h1.trans h2.symm⟩

theorem C4_checksum_model_equivalence_witness :
    executeJoin true 2 1 1 1 (fun _ => 0) (fun _ _ => 0) (fun _ => 0)
      [⟨2, 0⟩, ⟨1, 0⟩] [⟨1, 5⟩, ⟨2, 6⟩, ⟨1, 7⟩, ⟨2, 8⟩]
      = some (4, 9)
    ∧ executeJoin true 2 1 1 1 (fun _ => 0) (fun _ _ => 0) (fun _ => 0)
      [⟨2, 0⟩, ⟨1, 0⟩] [⟨1, 5⟩, ⟨2, 6⟩, ⟨1, 7⟩, ⟨2, 8⟩]
      = executeJoin true 1 2 2 0 (fun _ => 7) (fun _ _ => 7)
          (fun _ => 7) [⟨2, 0⟩, ⟨1, 0⟩]
          [⟨1, 5⟩, ⟨2, 6⟩, ⟨1, 7⟩, ⟨2, 8⟩] :=
  C4_checksum_model_equivalence 2 1 1 1 1 2 2 0
    (fun _ => 0) (fun _ _ => 0) (fun _ => 0)
    (fun _ => 7) (fun _ _ => 7) (fun _ => 7)
    [⟨2, 0⟩, ⟨1, 0⟩] [⟨1, 5⟩, ⟨2, 6⟩, ⟨1, 7⟩, ⟨2, 8⟩]
    (by unfold isPrimaryKey; decide) (by unfold isForeignKey; decide)
    (by decide) (by decide) (by decide) (by decide) (by decide)
    (by decide) (by decide) (by decide) (by decide) (by decide)
    (by decide) (by decide)
